import Mathlib

/-!
Verification of the validation and data-normalization engine of the
ai-excel repository (src/src/lib/validation.ts) together with the
page-level correction applier and export gate (the Home component).

The TypeScript sources are shallowly embedded: JavaScript strings are
Lean `String`s, `JSON.parse` is modelled by an executable recursive
descent parser over the JSON grammar (`jsonParse`), `parseInt` by
`parseIntJS`, `String.prototype.split`/`trim`/`toLowerCase` by
`splitOnChar`/`jsTrim`/`toLowerL`, and JavaScript `Set` objects by lists
with membership.  The object graph manipulated by the React page is
modelled by an explicit heap (`PageState`), so that sharing of row
objects between the old and the new collection after a shallow array
copy `[...xs]` is observable.
-/

namespace AIExcel

/-! ## JavaScript string helpers -/

/-- The whitespace characters relevant to JavaScript `trim`/`parseInt`
(ASCII space, tab, line feed, carriage return, vertical tab, form feed). -/
def isWsChar (c : Char) : Bool :=
  c == ' ' || c == '\t' || c == '\n' || c == '\r' || c == '\x0b' || c == '\x0c'

/-- Drop leading whitespace. -/
def dropWs : List Char → List Char
  | [] => []
  | c :: cs => if isWsChar c then dropWs cs else c :: cs

/-- JavaScript `String.prototype.trim`: drop leading and trailing whitespace. -/
def jsTrim (cs : List Char) : List Char :=
  ((dropWs ((dropWs cs).reverse)).reverse)

/-- JavaScript `String.prototype.toLowerCase` (ASCII-relevant part). -/
def toLowerL (cs : List Char) : List Char :=
  cs.map Char.toLower

/-- JavaScript `String.prototype.split` with a one-character separator:
splits at every occurrence; the empty string yields `[""]`. -/
def splitOnChar (sep : Char) : List Char → List (List Char)
  | [] => [[]]
  | c :: cs =>
    if c == sep then [] :: splitOnChar sep cs
    else
      match splitOnChar sep cs with
      | t :: ts => (c :: t) :: ts
      | [] => [[c]]

/-- Pack a character list back into a `String`. -/
def strOf (cs : List Char) : String := ⟨cs⟩

/-- Numeric value of a decimal digit run. -/
def digitsVal (ds : List Char) : Nat :=
  ds.foldl (fun acc c => acc * 10 + (c.toNat - 48)) 0

/-- Value of one hexadecimal digit, if it is one. -/
def hexDigitVal (c : Char) : Option Nat :=
  if '0' ≤ c && c ≤ '9' then some (c.toNat - 48)
  else if 'a' ≤ c && c ≤ 'f' then some (c.toNat - 87)
  else if 'A' ≤ c && c ≤ 'F' then some (c.toNat - 55)
  else none

/-- Numeric value of a hexadecimal digit run. -/
def hexVal (ds : List Char) : Nat :=
  ds.foldl (fun acc c => acc * 16 + ((hexDigitVal c).getD 0)) 0

/-- Longest prefix of decimal digits. -/
def spanDigits : List Char → (List Char × List Char)
  | [] => ([], [])
  | c :: cs =>
    if c.isDigit then
      match spanDigits cs with
      | (ds, rest) => (c :: ds, rest)
    else ([], c :: cs)

/-- Longest prefix of hexadecimal digits. -/
def spanHex : List Char → (List Char × List Char)
  | [] => ([], [])
  | c :: cs =>
    if (hexDigitVal c).isSome then
      match spanHex cs with
      | (ds, rest) => (c :: ds, rest)
    else ([], c :: cs)

/-- JavaScript `parseInt(s)` (radix auto-detected, so a `0x` prefix means
hexadecimal): skip leading whitespace, an optional sign, then the longest
digit prefix; `none` models `NaN`. -/
def parseIntJS (cs : List Char) : Option Int :=
  let cs1 := dropWs cs
  let signed : Bool × List Char :=
    match cs1 with
    | '+' :: r => (false, r)
    | '-' :: r => (true, r)
    | _ => (false, cs1)
  let neg := signed.1
  let body := signed.2
  let mag : Option Nat :=
    match body with
    | '0' :: x :: r =>
      if x == 'x' || x == 'X' then
        match spanHex r with
        | (hs, _) => if hs.isEmpty then none else some (hexVal hs)
      else
        match spanDigits body with
        | (ds, _) => if ds.isEmpty then none else some (digitsVal ds)
    | _ =>
      match spanDigits body with
      | (ds, _) => if ds.isEmpty then none else some (digitsVal ds)
  mag.map (fun n => if neg then -(n : Int) else (n : Int))

/-! ## A model of `JSON.parse`

JSON values; a number records whether its mathematical value is an
integer (the `Number.isInteger` test of the source) and, when it is, that
integer. -/

inductive Json where
  | null : Json
  | bool : Bool → Json
  | num : Bool → Int → Json
  | str : String → Json
  | arr : List Json → Json
  | obj : List (String × Json) → Json

/-- Is this value an array (`Array.isArray`)? -/
def Json.isArr : Json → Bool
  | .arr _ => true
  | _ => false

/-- JSON whitespace (space, tab, line feed, carriage return). -/
def skipWs : List Char → List Char
  | [] => []
  | c :: cs =>
    if c == ' ' || c == '\t' || c == '\n' || c == '\r' then skipWs cs
    else c :: cs

/-- The characters of a JSON string literal after the opening quote, with
escape sequences decoded; fails on an unterminated string, a bad escape or
a raw control character. Returns the decoded characters and the input after
the closing quote. -/
def parseStrChars : List Char → Option (List Char × List Char)
  | [] => none
  | '"' :: rest => some ([], rest)
  | '\\' :: 'u' :: a :: b :: c :: d :: rest =>
    (match hexDigitVal a, hexDigitVal b, hexDigitVal c, hexDigitVal d with
     | some x, some y, some z, some w =>
       (parseStrChars rest).map
         (fun p => (Char.ofNat (((x * 16 + y) * 16 + z) * 16 + w) :: p.1, p.2))
     | _, _, _, _ => none)
  | '\\' :: e :: rest =>
    (match
       (if e == '"' then some '"'
        else if e == '\\' then some '\\'
        else if e == '/' then some '/'
        else if e == 'b' then some (Char.ofNat 8)
        else if e == 'f' then some (Char.ofNat 12)
        else if e == 'n' then some '\n'
        else if e == 'r' then some '\r'
        else if e == 't' then some '\t'
        else none : Option Char) with
     | some c => (parseStrChars rest).map (fun p => (c :: p.1, p.2))
     | none => none)
  | c :: rest =>
    if c.toNat < 32 then none
    else (parseStrChars rest).map (fun p => (c :: p.1, p.2))

/-- A JSON number per the JSON grammar: optional minus, an integer part
(`0` alone, or a nonzero digit followed by digits), an optional fraction,
an optional exponent.  The mathematical value `m * 10 ^ k` is integral iff
`k ≥ 0` or `10 ^ (-k)` divides `m`. -/
def parseNumber (cs : List Char) : Option (Json × List Char) :=
  let signed : Bool × List Char :=
    match cs with
    | '-' :: r => (true, r)
    | _ => (false, cs)
  let neg := signed.1
  let afterSign := signed.2
  let intPart : Option (List Char × List Char) :=
    match afterSign with
    | '0' :: r => some (['0'], r)
    | c :: r =>
      if c.isDigit then
        match spanDigits r with
        | (ds, rest) => some (c :: ds, rest)
      else none
    | [] => none
  match intPart with
  | none => none
  | some (ids, afterInt) =>
    let fracPart : Option (List Char × List Char) :=
      match afterInt with
      | '.' :: r =>
        (match spanDigits r with
         | ([], _) => none
         | (ds, rest) => some (ds, rest))
      | _ => some ([], afterInt)
    match fracPart with
    | none => none
    | some (fds, afterFrac) =>
      let expPart : Option (Int × List Char) :=
        match afterFrac with
        | e :: r =>
          if e == 'e' || e == 'E' then
            let esigned : Bool × List Char :=
              match r with
              | '+' :: r2 => (false, r2)
              | '-' :: r2 => (true, r2)
              | _ => (false, r)
            match spanDigits esigned.2 with
            | ([], _) => none
            | (ds, rest) =>
              some ((if esigned.1 then -(digitsVal ds : Int) else (digitsVal ds : Int)), rest)
          else some (0, afterFrac)
        | [] => some (0, [])
      match expPart with
      | none => none
      | some (ex, rest) =>
        let mAbs : Nat := digitsVal (ids ++ fds)
        let m : Int := if neg then -(mAbs : Int) else (mAbs : Int)
        let k : Int := ex - (fds.length : Int)
        if 0 ≤ k then
          some (Json.num true (m * ((10 : Int) ^ k.toNat)), rest)
        else
          let d : Int := (10 : Int) ^ (-k).toNat
          if m % d = 0 then some (Json.num true (m / d), rest)
          else some (Json.num false (m / d), rest)

mutual

/-- Recursive-descent JSON value parser (the core of `JSON.parse`),
fueled to make termination structural. -/
def parseValue : Nat → List Char → Option (Json × List Char)
  | 0, _ => none
  | Nat.succ fuel, cs =>
    match skipWs cs with
    | 'n' :: 'u' :: 'l' :: 'l' :: rest => some (Json.null, rest)
    | 't' :: 'r' :: 'u' :: 'e' :: rest => some (Json.bool true, rest)
    | 'f' :: 'a' :: 'l' :: 's' :: 'e' :: rest => some (Json.bool false, rest)
    | '"' :: rest => (parseStrChars rest).map (fun p => (Json.str (strOf p.1), p.2))
    | '[' :: rest =>
      (match skipWs rest with
       | ']' :: rest2 => some (Json.arr [], rest2)
       | _ => (parseElems fuel rest).map (fun p => (Json.arr p.1, p.2)))
    | c :: rest =>
      if c.toNat = 123 then
        (match skipWs rest with
         | c2 :: rest2 =>
           if c2.toNat = 125 then some (Json.obj [], rest2)
           else (parseMembers fuel (c2 :: rest2)).map (fun p => (Json.obj p.1, p.2))
         | [] => none)
      else parseNumber (c :: rest)
    | [] => none

/-- The elements of a nonempty JSON array, up to and including the
closing bracket. -/
def parseElems : Nat → List Char → Option (List Json × List Char)
  | 0, _ => none
  | Nat.succ fuel, cs =>
    match parseValue fuel cs with
    | none => none
    | some (v, r) =>
      match skipWs r with
      | ',' :: r2 => (parseElems fuel r2).map (fun p => (v :: p.1, p.2))
      | ']' :: r2 => some ([v], r2)
      | _ => none

/-- The members of a nonempty JSON object, up to and including the
closing brace. -/
def parseMembers : Nat → List Char → Option (List (String × Json) × List Char)
  | 0, _ => none
  | Nat.succ fuel, cs =>
    match skipWs cs with
    | '"' :: r =>
      (match parseStrChars r with
       | none => none
       | some (key, r2) =>
         match skipWs r2 with
         | ':' :: r3 =>
           (match parseValue fuel r3 with
            | none => none
            | some (v, r4) =>
              match skipWs r4 with
              | ',' :: r5 => (parseMembers fuel r5).map (fun p => ((strOf key, v) :: p.1, p.2))
              | c :: r5 =>
                if c.toNat = 125 then some ([(strOf key, v)], r5) else none
              | [] => none)
         | _ => none)
    | _ => none

end

/-- The model of `JSON.parse(s)`: `none` models a thrown `SyntaxError`.  The whole
string must be consumed (up to trailing whitespace). -/
def jsonParse (s : String) : Option Json :=
  match parseValue (s.data.length + 1) s.data with
  | some (j, rest) => if (skipWs rest).isEmpty then some j else none
  | none => none

/-! ## The data model (src/types/index.ts) -/

/-- The `Client` record. -/
structure Client where
  ClientID : String
  ClientName : String
  PriorityLevel : Int
  RequestedTaskIDs : String
  GroupTag : String
  AttributesJSON : String
deriving DecidableEq, Repr

/-- The `Worker` record. -/
structure Worker where
  WorkerID : String
  WorkerName : String
  Skills : String
  AvailableSlots : String
  MaxLoadPerPhase : Int
  WorkerGroup : String
  QualificationLevel : Int
deriving DecidableEq, Repr

/-- The `Task` record. -/
structure Task where
  TaskID : String
  TaskName : String
  Category : String
  Duration : Int
  RequiredSkills : String
  PreferredPhases : String
  MaxConcurrent : Int
deriving DecidableEq, Repr

/-- Finding severity. -/
inductive Severity where
  | error : Severity
  | warning : Severity
deriving DecidableEq, Repr

/-- The `ValidationError` report unit. -/
structure ValidationError where
  type : String
  message : String
  row : Option Nat
  column : Option String
  entity : Option String
  severity : Severity
deriving DecidableEq, Repr

/-! ## The entity validators (src/src/lib/validation.ts) -/

/-- The comma-split-and-trim applied to `RequestedTaskIDs`. -/
def splitTrim (s : String) : List String :=
  (splitOnChar ',' s.data).map (fun t => strOf (jsTrim t))

/-- The comma-split, trim and lower-case applied to skill lists. -/
def splitTrimLower (s : String) : List String :=
  (splitOnChar ',' s.data).map (fun t => strOf (toLowerL (jsTrim t)))

/-- A duplicate-identifier finding: the message is the prefix `pre`
(for example `"Duplicate ClientID: "`) followed by the identifier. -/
def mkDupFinding (pre col ent : String) (idx : Nat) (id : String) : ValidationError :=
  ⟨"duplicate_id", pre ++ id, some idx, some col, some ent, .error⟩

/-- The findings `validateClients` pushes for one client row after the
duplicate-id check: required fields, priority range, requested-task
references, attributes JSON — in the source's order. -/
def clientRowRest (taskIds : List String) (idx : Nat) (c : Client) :
    List ValidationError :=
  (if c.ClientID = "" then
    [⟨"missing_required", "ClientID is required", some idx, some "ClientID",
      some "clients", .error⟩]
   else [])
  ++ (if c.ClientName = "" then
    [⟨"missing_required", "ClientName is required", some idx, some "ClientName",
      some "clients", .error⟩]
   else [])
  ++ (if c.PriorityLevel < 1 ∨ 5 < c.PriorityLevel then
    [⟨"out_of_range", "PriorityLevel must be between 1 and 5", some idx, some "PriorityLevel",
      some "clients", .error⟩]
   else [])
  ++ (if c.RequestedTaskIDs ≠ "" then
    (splitTrim c.RequestedTaskIDs).flatMap (fun tid =>
      if tid ≠ "" ∧ ¬ (taskIds.contains tid = true) then
        [⟨"unknown_reference", "RequestedTaskID " ++ tid ++ " does not exist in tasks",
          some idx, some "RequestedTaskIDs", some "clients", .error⟩]
      else [])
   else [])
  ++ (if c.AttributesJSON ≠ "" then
    (match jsonParse c.AttributesJSON with
     | some _ => []
     | none =>
       [⟨"malformed_json", "Invalid JSON in AttributesJSON", some idx, some "AttributesJSON",
         some "clients", .error⟩])
   else [])

/-- All findings `validateClients` pushes for one client row: the
duplicate-id finding (when the running id set already held this
`ClientID`) followed by the per-field checks, in the source's order. -/
def clientRowFindings (taskIds : List String) (isDup : Bool) (idx : Nat) (c : Client) :
    List ValidationError :=
  (if isDup then [mkDupFinding "Duplicate ClientID: " "ClientID" "clients" idx c.ClientID]
   else [])
  ++ clientRowRest taskIds idx c

/-- The `clients.forEach` loop of `validateClients`, threading the
running `clientIds` set (the id is added after the duplicate check). -/
def validateClientsAux (taskIds : List String) (seen : List String) (idx : Nat) :
    List Client → List ValidationError
  | [] => []
  | c :: rest =>
    clientRowFindings taskIds (seen.contains c.ClientID) idx c
      ++ validateClientsAux taskIds (c.ClientID :: seen) (idx + 1) rest

/-- The embedding of `ValidationService.validateClients`. -/
def validateClients (clients : List Client) (tasks : List Task) : List ValidationError :=
  validateClientsAux (tasks.map (·.TaskID)) [] 0 clients

/-- Is a JSON value flagged by the `AvailableSlots` element check
`!Number.isInteger(slot) || slot < 1`? -/
def slotBad : Json → Bool
  | .num true n => n < 1
  | _ => true

/-- The findings for one worker's `AvailableSlots` field: a successful
`JSON.parse` yielding an array checks each element (pushing
`out_of_range`), a non-array parse pushes one `malformed_list`, and a
parse failure falls back to the comma-separated interpretation (pushing
`malformed_list` per bad token). -/
def workerSlotsFindings (idx : Nat) (s : String) : List ValidationError :=
  if s ≠ "" then
    match jsonParse s with
    | some (.arr xs) =>
      xs.flatMap (fun j =>
        if slotBad j then
          [⟨"out_of_range", "AvailableSlots must contain positive integers", some idx,
            some "AvailableSlots", some "workers", .error⟩]
        else [])
    | some _ =>
      [⟨"malformed_list", "AvailableSlots must be an array", some idx,
        some "AvailableSlots", some "workers", .error⟩]
    | none =>
      (splitOnChar ',' s.data).flatMap (fun t =>
        match parseIntJS (jsTrim t) with
        | some n =>
          if n < 1 then
            [⟨"malformed_list", "AvailableSlots contains invalid numbers", some idx,
              some "AvailableSlots", some "workers", .error⟩]
          else []
        | none =>
          [⟨"malformed_list", "AvailableSlots contains invalid numbers", some idx,
            some "AvailableSlots", some "workers", .error⟩])
  else []

/-- The findings `validateWorkers` pushes for one worker row after the
duplicate-id check, in the source's order. -/
def workerRowRest (idx : Nat) (w : Worker) : List ValidationError :=
  (if w.WorkerID = "" then
    [⟨"missing_required", "WorkerID is required", some idx, some "WorkerID",
      some "workers", .error⟩]
   else [])
  ++ (if w.WorkerName = "" then
    [⟨"missing_required", "WorkerName is required", some idx, some "WorkerName",
      some "workers", .error⟩]
   else [])
  ++ workerSlotsFindings idx w.AvailableSlots
  ++ (if w.MaxLoadPerPhase < 1 then
    [⟨"out_of_range", "MaxLoadPerPhase must be at least 1", some idx, some "MaxLoadPerPhase",
      some "workers", .error⟩]
   else [])

/-- All findings `validateWorkers` pushes for one worker row. -/
def workerRowFindings (isDup : Bool) (idx : Nat) (w : Worker) : List ValidationError :=
  (if isDup then [mkDupFinding "Duplicate WorkerID: " "WorkerID" "workers" idx w.WorkerID]
   else [])
  ++ workerRowRest idx w

/-- The `workers.forEach` loop of `validateWorkers`. -/
def validateWorkersAux (seen : List String) (idx : Nat) : List Worker → List ValidationError
  | [] => []
  | w :: rest =>
    workerRowFindings (seen.contains w.WorkerID) idx w
      ++ validateWorkersAux (w.WorkerID :: seen) (idx + 1) rest

/-- The embedding of `ValidationService.validateWorkers`. -/
def validateWorkers (workers : List Worker) : List ValidationError :=
  validateWorkersAux [] 0 workers

/-- The findings for one task's `PreferredPhases` field.  A successful
`JSON.parse` yielding an array passes with no element check; any other
parse outcome (failure, or a non-array value, which the source re-throws
into the same catch) tries the hyphenated range when the string contains
a hyphen and the comma-separated list otherwise. -/
def taskPhasesFindings (idx : Nat) (s : String) : List ValidationError :=
  if s ≠ "" then
    match jsonParse s with
    | some (.arr _) => []
    | _ =>
      if s.data.contains '-' then
        match splitOnChar '-' s.data with
        | t1 :: t2 :: _ =>
          (match parseIntJS (jsTrim t1), parseIntJS (jsTrim t2) with
           | some a, some b =>
             if a > b then
               [⟨"malformed_list", "PreferredPhases range is invalid", some idx,
                 some "PreferredPhases", some "tasks", .error⟩]
             else []
           | _, _ =>
             [⟨"malformed_list", "PreferredPhases range is invalid", some idx,
               some "PreferredPhases", some "tasks", .error⟩])
        | _ => []
      else
        if ((splitOnChar ',' s.data).map (fun t => parseIntJS (jsTrim t))).any
            (fun p => match p with | some n => n < 1 | none => true) then
          [⟨"malformed_list", "PreferredPhases contains invalid phase numbers", some idx,
            some "PreferredPhases", some "tasks", .error⟩]
        else []
  else []

/-- The findings `validateTasks` pushes for one task row after the
duplicate-id check, in the source's order. -/
def taskRowRest (idx : Nat) (t : Task) : List ValidationError :=
  (if t.TaskID = "" then
    [⟨"missing_required", "TaskID is required", some idx, some "TaskID",
      some "tasks", .error⟩]
   else [])
  ++ (if t.TaskName = "" then
    [⟨"missing_required", "TaskName is required", some idx, some "TaskName",
      some "tasks", .error⟩]
   else [])
  ++ (if t.Duration < 1 then
    [⟨"out_of_range", "Duration must be at least 1", some idx, some "Duration",
      some "tasks", .error⟩]
   else [])
  ++ (if t.MaxConcurrent < 1 then
    [⟨"out_of_range", "MaxConcurrent must be at least 1", some idx, some "MaxConcurrent",
      some "tasks", .error⟩]
   else [])
  ++ taskPhasesFindings idx t.PreferredPhases

/-- All findings `validateTasks` pushes for one task row. -/
def taskRowFindings (isDup : Bool) (idx : Nat) (t : Task) : List ValidationError :=
  (if isDup then [mkDupFinding "Duplicate TaskID: " "TaskID" "tasks" idx t.TaskID]
   else [])
  ++ taskRowRest idx t

/-- The `tasks.forEach` loop of `validateTasks`. -/
def validateTasksAux (seen : List String) (idx : Nat) : List Task → List ValidationError
  | [] => []
  | t :: rest =>
    taskRowFindings (seen.contains t.TaskID) idx t
      ++ validateTasksAux (t.TaskID :: seen) (idx + 1) rest

/-- The embedding of `ValidationService.validateTasks`. -/
def validateTasks (tasks : List Task) : List ValidationError :=
  validateTasksAux [] 0 tasks

/-! ## The cross-reference validator -/

/-- The case-insensitive set of all skill tags offered across the worker
collection (`allWorkerSkills` in the source). -/
def allWorkerSkills (workers : List Worker) : List String :=
  workers.flatMap (fun w => if w.Skills ≠ "" then splitTrimLower w.Skills else [])

/-- The skill-coverage findings for one task row. -/
def crossRowFindings (wskills : List String) (idx : Nat) (t : Task) : List ValidationError :=
  if t.RequiredSkills ≠ "" then
    (splitTrimLower t.RequiredSkills).flatMap (fun sk =>
      if sk ≠ "" ∧ ¬ (wskills.contains sk = true) then
        [⟨"skill_coverage", "No worker has required skill: " ++ sk, some idx,
          some "RequiredSkills", some "tasks", .warning⟩]
      else [])
  else []

/-- The `tasks.forEach` loop of `validateCrossReferences`. -/
def validateCrossAux (wskills : List String) (idx : Nat) : List Task → List ValidationError
  | [] => []
  | t :: rest =>
    crossRowFindings wskills idx t ++ validateCrossAux wskills (idx + 1) rest

/-- The embedding of `ValidationService.validateCrossReferences` (the `clients` parameter
is taken but unused, as in the source). -/
def validateCrossReferences (clients : List Client) (workers : List Worker)
    (tasks : List Task) : List ValidationError :=
  let _ := clients
  validateCrossAux (allWorkerSkills workers) 0 tasks

/-- The embedding of `ValidationService.validateAll`: the four validators concatenated in
the source's fixed order. -/
def validateAll (clients : List Client) (workers : List Worker) (tasks : List Task) :
    List ValidationError :=
  validateClients clients tasks ++ validateWorkers workers ++ validateTasks tasks
    ++ validateCrossReferences clients workers tasks

/-! ## The export gate (Home component) -/

/-- The export gate `canExport`: all three collections non-empty and no error-severity
finding in the current report. -/
def canExport (validationErrors : List ValidationError) (clients : List Client)
    (workers : List Worker) (tasks : List Task) : Bool :=
  (decide (0 < clients.length) && decide (0 < workers.length) && decide (0 < tasks.length))
    && ((validationErrors.filter (fun e => e.severity == Severity.error)).length == 0)

/-- The handler `handleExport` refuses (returns `false`, the alert-and-return path)
exactly when `canExport` is false; otherwise the files are written and it
returns `true`. -/
def handleExport (validationErrors : List ValidationError) (clients : List Client)
    (workers : List Worker) (tasks : List Task) : Bool :=
  if canExport validationErrors clients workers tasks = false then false else true

/-! ## The correction applier (`handleApplyFix` of the Home component)

React state holds three arrays of row objects.  `handleApplyFix` copies
the owning array shallowly (`[...xs]`) and then assigns
`newData[rowIndex][field] = newValue` — a property write on the row
object that the copy shares with the original array.  To make that
sharing observable the embedding separates the object heap (row objects,
addressed by `Nat` references) from the arrays (lists of references). -/

/-- A JavaScript row object: an ordered association list of fields.
Property assignment overwrites an existing key in place or appends a new
one. -/
def setFields {α : Type} : List (String × α) → String → α → List (String × α)
  | [], f, v => [(f, v)]
  | (k, w) :: rest, f, v =>
    if k = f then (k, v) :: rest else (k, w) :: setFields rest f v

/-- Property read: the value of the first matching key. -/
def getField {α : Type} : List (String × α) → String → Option α
  | [], _ => none
  | (k, w) :: rest, f => if k = f then some w else getField rest f

/-- The page's state: a heap of row objects and, per collection, the
array of references the corresponding React state variable holds. -/
structure PageState (α : Type) where
  heap : List (List (String × α))
  clients : List Nat
  workers : List Nat
  tasks : List Nat
deriving DecidableEq, Repr

/-- The rows a collection denotes: each reference read through the heap. -/
def derefColl {α : Type} (heap : List (List (String × α))) (refs : List Nat) :
    List (List (String × α)) :=
  refs.map (fun r => heap.getD r [])

/-- The assignment `newData = [...xs]; newData[rowIndex][field] = newValue`: the new
array holds the same references; the row object at `rowIndex` is updated
in the heap.  `none` models the `TypeError` thrown when `rowIndex` is out
of bounds (`newData[rowIndex]` is `undefined`). -/
def applyAt {α : Type} (heap : List (List (String × α))) (refs : List Nat) (rowIndex : Nat)
    (field : String) (v : α) : Option (List (List (String × α)) × List Nat) :=
  match refs[rowIndex]? with
  | some r => some (heap.set r (setFields (heap.getD r []) field v), refs)
  | none => none

/-- The applier `handleApplyFix(entityType, rowIndex, field, newValue)`: dispatches on
the entity tag; an unrecognized tag leaves the state unchanged. -/
def handleApplyFix {α : Type} (st : PageState α) (entityType : String) (rowIndex : Nat)
    (field : String) (newValue : α) : Option (PageState α) :=
  if entityType = "clients" then
    match applyAt st.heap st.clients rowIndex field newValue with
    | some (h, refs) => some { st with heap := h, clients := refs }
    | none => none
  else if entityType = "workers" then
    match applyAt st.heap st.workers rowIndex field newValue with
    | some (h, refs) => some { st with heap := h, workers := refs }
    | none => none
  else if entityType = "tasks" then
    match applyAt st.heap st.tasks rowIndex field newValue with
    | some (h, refs) => some { st with heap := h, tasks := refs }
    | none => none
  else some st

/-- The reference array the state holds for an entity tag. -/
def collOf {α : Type} (st : PageState α) (entityType : String) : List Nat :=
  if entityType = "clients" then st.clients
  else if entityType = "workers" then st.workers
  else st.tasks

/-! ## Shared helper lemmas -/

/-- Strings are equal iff their character lists are. -/
theorem str_eq_of_data_eq {s t : String} (h : s.data = t.data) : s = t := by
  cases s
  cases t
  exact congrArg String.mk h

/-- Appending on the left is cancellative for strings. -/
theorem str_append_cancel (p a b : String) : p ++ a = p ++ b ↔ a = b := by
  constructor
  · intro h
    have hd : p.data ++ a.data = p.data ++ b.data := by
      have := congrArg String.data h
      simpa [String.data_append] using this
    exact str_eq_of_data_eq (List.append_cancel_left hd)
  · intro h
    rw [h]

/-- Counting over an if-guarded singleton whose element fails the predicate. -/
theorem countP_ite_zero {α : Type} (P : Prop) [Decidable P] (p : α → Bool) (x : α)
    (h : p x = false) : List.countP p (if P then [x] else []) = 0 := by
  split <;> simp [List.countP_cons, h]

/-- Counting over an if-guarded singleton whose element meets the predicate. -/
theorem countP_ite_one {α : Type} (P : Prop) [Decidable P] (p : α → Bool) (x : α)
    (h : p x = true) : List.countP p (if P then [x] else []) = if P then 1 else 0 := by
  split <;> simp [List.countP_cons, h]

/-- Filtering an if-guarded singleton whose element fails the predicate. -/
theorem filter_ite_nil {α : Type} (P : Prop) [Decidable P] (p : α → Bool) (x : α)
    (h : p x = false) : List.filter p (if P then [x] else []) = [] := by
  split <;> simp [List.filter_cons, h]

/-- Filtering an if-guarded singleton whose element meets the predicate. -/
theorem filter_ite_id {α : Type} (P : Prop) [Decidable P] (p : α → Bool) (x : α)
    (h : p x = true) : List.filter p (if P then [x] else []) = if P then [x] else [] := by
  split <;> simp [List.filter_cons, h]

/-- Filtering distributes over `flatMap`. -/
theorem filter_flatMap {α β : Type} (l : List α) (f : α → List β) (p : β → Bool) :
    (l.flatMap f).filter p = l.flatMap (fun a => (f a).filter p) := by
  induction l with
  | nil => rfl
  | cons a l ih => simp [List.flatMap_cons, List.filter_append, ih]

/-- Membership in an if-guarded singleton. -/
theorem eq_of_mem_ite_singleton {α : Type} {P : Prop} [Decidable P] {x e : α}
    (h : e ∈ (if P then [x] else [])) : e = x := by
  split at h <;> simp_all

/-- Counting over an if-guarded singleton, fully split. -/
theorem countP_ite {α : Type} (P : Prop) [Decidable P] (p : α → Bool) (x : α) :
    List.countP p (if P then [x] else []) = if P then (if p x then 1 else 0) else 0 := by
  split
  · simp [List.countP_cons]
  · simp

/-! ## Single-row count reductions

For a one-element collection the only `malformed_list` findings of
`validateWorkers` come from the `AvailableSlots` check, and the only
`out_of_range` findings on the `AvailableSlots` column come from its
JSON-array element check; dually for `validateTasks` and
`PreferredPhases`. -/

theorem countP_validateWorkers_single_ml (w : Worker) :
    (validateWorkers [w]).countP (fun e => e.type == "malformed_list")
      = (workerSlotsFindings 0 w.AvailableSlots).countP (fun e => e.type == "malformed_list") := by
  simp [validateWorkers, validateWorkersAux, workerRowFindings, workerRowRest,
    List.countP_append, countP_ite]

theorem countP_validateWorkers_single_oor (w : Worker) :
    (validateWorkers [w]).countP
        (fun e => e.type == "out_of_range" && e.column == some "AvailableSlots")
      = (workerSlotsFindings 0 w.AvailableSlots).countP
        (fun e => e.type == "out_of_range" && e.column == some "AvailableSlots") := by
  simp [validateWorkers, validateWorkersAux, workerRowFindings, workerRowRest,
    List.countP_append, countP_ite]

theorem countP_validateTasks_single_ml (t : Task) :
    (validateTasks [t]).countP (fun e => e.type == "malformed_list")
      = (taskPhasesFindings 0 t.PreferredPhases).countP (fun e => e.type == "malformed_list") := by
  simp [validateTasks, validateTasksAux, taskRowFindings, taskRowRest,
    List.countP_append, countP_ite]

/-- Export proceeds exactly when `canExport` holds. -/
theorem handleExport_eq_canExport (errors : List ValidationError) (cs : List Client)
    (ws : List Worker) (ts : List Task) :
    handleExport errors cs ws ts = canExport errors cs ws ts := by
  unfold handleExport
  split <;> simp_all

/-- C6: Export is permitted if and only if the current finding list contains
zero findings of severity "error" and all three collections (clients,
workers, tasks) are non-empty; warnings never block export. -/
theorem C6_export_gate (errors : List ValidationError) (cs : List Client)
    (ws : List Worker) (ts : List Task) :
    handleExport errors cs ws ts = true ↔
      ((∀ e ∈ errors, e.severity ≠ Severity.error) ∧ cs ≠ [] ∧ ws ≠ [] ∧ ts ≠ []) := by
  rw [handleExport_eq_canExport]
  simp only [canExport, Bool.and_eq_true, decide_eq_true_eq, beq_iff_eq,
    List.length_eq_zero, List.filter_eq_nil_iff, List.length_pos]
  constructor
  · rintro ⟨⟨⟨hc, hw⟩, ht⟩, he⟩
    exact ⟨fun e he' => by simpa using he e he', hc, hw, ht⟩
  · rintro ⟨he, hc, hw, ht⟩
    exact ⟨⟨⟨hc, hw⟩, ht⟩, fun e he' => by simpa using he e he'⟩

/-- A concrete instance of the export gate: one error-free finding list over
non-empty collections permits export. -/
theorem C6_export_gate_witness :
    handleExport
      [⟨"skill_coverage", "No worker has required skill: rust", some 0,
        some "RequiredSkills", some "tasks", Severity.warning⟩]
      [⟨"C1", "Client", 3, "", "", ""⟩]
      [⟨"W1", "Name", "js", "[1]", 1, "", 0⟩]
      [⟨"T1", "Name", "", 1, "js", "[1]", 1⟩] = true :=
  (C6_export_gate _ _ _ _).2 ⟨by decide, by decide, by decide, by decide⟩

/-! ## C2: Worker `AvailableSlots` decode findings -/

/-- A worker whose `AvailableSlots` is the JSON array `[1,-2]`. -/
def workerC2 : Worker := ⟨"W1", "Worker One", "", "[1,-2]", 1, "", 0⟩

/-- C2 counterexample: the claim says the AvailableSlots string `"[1,-2]"`
produces exactly one `malformed_list` finding; on the code it produces
none (the JSON-array element check pushes `out_of_range`, not
`malformed_list`). -/
theorem C2_slots_counterexample :
    (validateWorkers [workerC2]).countP (fun e => e.type == "malformed_list") = 0 := by
  decide

/-- C2 amended: `"[1,2,3]"` and `"1, 2, 3"` each produce zero
`malformed_list` findings; `"1,-2"` produces exactly one `malformed_list`
finding; `"[1,-2]"` produces zero `malformed_list` findings and exactly
one `out_of_range` finding on the `AvailableSlots` column (a sub-minimum
element is a malformed-list-class failure only in the comma-separated
encoding; in the JSON-array encoding it is an out-of-range-class
failure). -/
theorem C2_slots_amended (w : Worker) :
    (w.AvailableSlots = "[1,2,3]" →
      (validateWorkers [w]).countP (fun e => e.type == "malformed_list") = 0)
    ∧ (w.AvailableSlots = "1, 2, 3" →
      (validateWorkers [w]).countP (fun e => e.type == "malformed_list") = 0)
    ∧ (w.AvailableSlots = "1,-2" →
      (validateWorkers [w]).countP (fun e => e.type == "malformed_list") = 1)
    ∧ (w.AvailableSlots = "[1,-2]" →
      (validateWorkers [w]).countP (fun e => e.type == "malformed_list") = 0
      ∧ (validateWorkers [w]).countP
          (fun e => e.type == "out_of_range" && e.column == some "AvailableSlots") = 1) := by
  refine ⟨fun h => ?_, fun h => ?_, fun h => ?_, fun h => ?_⟩
  · rw [countP_validateWorkers_single_ml, h]
    decide
  · rw [countP_validateWorkers_single_ml, h]
    decide
  · rw [countP_validateWorkers_single_ml, h]
    decide
  · refine ⟨?_, ?_⟩
    · rw [countP_validateWorkers_single_ml, h]
      decide
    · rw [countP_validateWorkers_single_oor, h]
      decide

/-- C2 witness: the amended statement evaluated at concrete workers
carrying each of the four encodings. -/
theorem C2_slots_amended_witness :
    (validateWorkers [(⟨"W1", "N", "", "[1,2,3]", 1, "", 0⟩ : Worker)]).countP
        (fun e => e.type == "malformed_list") = 0
    ∧ (validateWorkers [(⟨"W1", "N", "", "1, 2, 3", 1, "", 0⟩ : Worker)]).countP
        (fun e => e.type == "malformed_list") = 0
    ∧ (validateWorkers [(⟨"W1", "N", "", "1,-2", 1, "", 0⟩ : Worker)]).countP
        (fun e => e.type == "malformed_list") = 1
    ∧ (validateWorkers [workerC2]).countP
        (fun e => e.type == "out_of_range" && e.column == some "AvailableSlots") = 1 :=
  ⟨(C2_slots_amended _).1 rfl, (C2_slots_amended _).2.1 rfl,
   (C2_slots_amended _).2.2.1 rfl, ((C2_slots_amended workerC2).2.2.2 rfl).2⟩

/-! ## C9: Task `PreferredPhases` decode findings -/

/-- C9: `"1-3"` produces zero `malformed_list` findings; `"3-1"` (range
with start > end) produces exactly one; `"[1,2,3]"` produces zero;
`"1,2,x"` (comma list with a non-numeric token) produces exactly one. -/
theorem C9_phases_decodes (t : Task) :
    (t.PreferredPhases = "1-3" →
      (validateTasks [t]).countP (fun e => e.type == "malformed_list") = 0)
    ∧ (t.PreferredPhases = "3-1" →
      (validateTasks [t]).countP (fun e => e.type == "malformed_list") = 1)
    ∧ (t.PreferredPhases = "[1,2,3]" →
      (validateTasks [t]).countP (fun e => e.type == "malformed_list") = 0)
    ∧ (t.PreferredPhases = "1,2,x" →
      (validateTasks [t]).countP (fun e => e.type == "malformed_list") = 1) := by
  refine ⟨fun h => ?_, fun h => ?_, fun h => ?_, fun h => ?_⟩ <;>
    rw [countP_validateTasks_single_ml, h] <;> decide

/-- C9 witness: the four phase encodings at concrete tasks. -/
theorem C9_phases_decodes_witness :
    (validateTasks [(⟨"T1", "N", "", 1, "", "1-3", 1⟩ : Task)]).countP
        (fun e => e.type == "malformed_list") = 0
    ∧ (validateTasks [(⟨"T1", "N", "", 1, "", "3-1", 1⟩ : Task)]).countP
        (fun e => e.type == "malformed_list") = 1
    ∧ (validateTasks [(⟨"T1", "N", "", 1, "", "[1,2,3]", 1⟩ : Task)]).countP
        (fun e => e.type == "malformed_list") = 0
    ∧ (validateTasks [(⟨"T1", "N", "", 1, "", "1,2,x", 1⟩ : Task)]).countP
        (fun e => e.type == "malformed_list") = 1 :=
  ⟨(C9_phases_decodes _).1 rfl, (C9_phases_decodes _).2.1 rfl,
   (C9_phases_decodes _).2.2.1 rfl, (C9_phases_decodes _).2.2.2 rfl⟩

/-! ## Shape lemmas: what each validator can emit -/

/-- Everything the `AvailableSlots` check emits sits on the given row and
column, has severity error, and is `out_of_range` or `malformed_list`. -/
theorem mem_workerSlotsFindings {e : ValidationError} {i : Nat} {s : String}
    (h : e ∈ workerSlotsFindings i s) :
    e.row = some i ∧ e.severity = Severity.error ∧ e.column = some "AvailableSlots" ∧
      (e.type = "out_of_range" ∨ e.type = "malformed_list") := by
  unfold workerSlotsFindings at h
  split at h
  · split at h
    · rw [List.mem_flatMap] at h
      obtain ⟨j, -, hj⟩ := h
      have := eq_of_mem_ite_singleton hj
      subst this
      exact ⟨rfl, rfl, rfl, Or.inl rfl⟩
    · simp only [List.mem_singleton] at h
      subst h
      exact ⟨rfl, rfl, rfl, Or.inr rfl⟩
    · rw [List.mem_flatMap] at h
      obtain ⟨t, -, ht⟩ := h
      split at ht
      · have := eq_of_mem_ite_singleton ht
        subst this
        exact ⟨rfl, rfl, rfl, Or.inr rfl⟩
      · simp only [List.mem_singleton] at ht
        subst ht
        exact ⟨rfl, rfl, rfl, Or.inr rfl⟩
  · simp at h

/-- Everything the `PreferredPhases` check emits sits on the given row and
column and is an error-severity `malformed_list`. -/
theorem mem_taskPhasesFindings {e : ValidationError} {i : Nat} {s : String}
    (h : e ∈ taskPhasesFindings i s) :
    e.row = some i ∧ e.severity = Severity.error ∧ e.column = some "PreferredPhases" ∧
      e.type = "malformed_list" := by
  unfold taskPhasesFindings at h
  split at h
  · split at h
    · simp at h
    · split at h
      · split at h
        · split at h
          · split at h
            · simp only [List.mem_singleton] at h
              subst h
              exact ⟨rfl, rfl, rfl, rfl⟩
            · simp at h
          · simp only [List.mem_singleton] at h
            subst h
            exact ⟨rfl, rfl, rfl, rfl⟩
        · simp at h
      · split at h
        · simp only [List.mem_singleton] at h
          subst h
          exact ⟨rfl, rfl, rfl, rfl⟩
        · simp at h
  · simp at h

/-- Everything a client row emits besides the duplicate-id finding sits on
that row, has severity error, and is one of the four client kinds. -/
theorem mem_clientRowRest {e : ValidationError} {tids : List String} {i : Nat} {c : Client}
    (h : e ∈ clientRowRest tids i c) :
    e.row = some i ∧ e.severity = Severity.error ∧
      (e.type = "missing_required" ∨ e.type = "out_of_range" ∨ e.type = "unknown_reference"
        ∨ e.type = "malformed_json") := by
  unfold clientRowRest at h
  simp only [List.mem_append] at h
  rcases h with (((h | h) | h) | h) | h
  · have := eq_of_mem_ite_singleton h
    subst this
    exact ⟨rfl, rfl, Or.inl rfl⟩
  · have := eq_of_mem_ite_singleton h
    subst this
    exact ⟨rfl, rfl, Or.inl rfl⟩
  · have := eq_of_mem_ite_singleton h
    subst this
    exact ⟨rfl, rfl, Or.inr (Or.inl rfl)⟩
  · split at h
    · rw [List.mem_flatMap] at h
      obtain ⟨tid, -, htid⟩ := h
      have := eq_of_mem_ite_singleton htid
      subst this
      exact ⟨rfl, rfl, Or.inr (Or.inr (Or.inl rfl))⟩
    · simp at h
  · split at h
    · split at h
      · simp at h
      · simp only [List.mem_singleton] at h
        subst h
        exact ⟨rfl, rfl, Or.inr (Or.inr (Or.inr rfl))⟩
    · simp at h

/-- Everything a worker row emits besides the duplicate-id finding sits on
that row, has severity error, and is one of the three worker kinds. -/
theorem mem_workerRowRest {e : ValidationError} {i : Nat} {w : Worker}
    (h : e ∈ workerRowRest i w) :
    e.row = some i ∧ e.severity = Severity.error ∧
      (e.type = "missing_required" ∨ e.type = "out_of_range" ∨ e.type = "malformed_list") := by
  unfold workerRowRest at h
  simp only [List.mem_append] at h
  rcases h with ((h | h) | h) | h
  · have := eq_of_mem_ite_singleton h
    subst this
    exact ⟨rfl, rfl, Or.inl rfl⟩
  · have := eq_of_mem_ite_singleton h
    subst this
    exact ⟨rfl, rfl, Or.inl rfl⟩
  · obtain ⟨hr, hs, -, ht⟩ := mem_workerSlotsFindings h
    exact ⟨hr, hs, Or.inr ht⟩
  · have := eq_of_mem_ite_singleton h
    subst this
    exact ⟨rfl, rfl, Or.inr (Or.inl rfl)⟩

/-- Everything a task row emits besides the duplicate-id finding sits on
that row, has severity error, and is one of the three task kinds. -/
theorem mem_taskRowRest {e : ValidationError} {i : Nat} {t : Task}
    (h : e ∈ taskRowRest i t) :
    e.row = some i ∧ e.severity = Severity.error ∧
      (e.type = "missing_required" ∨ e.type = "out_of_range" ∨ e.type = "malformed_list") := by
  unfold taskRowRest at h
  simp only [List.mem_append] at h
  rcases h with (((h | h) | h) | h) | h
  · have := eq_of_mem_ite_singleton h
    subst this
    exact ⟨rfl, rfl, Or.inl rfl⟩
  · have := eq_of_mem_ite_singleton h
    subst this
    exact ⟨rfl, rfl, Or.inl rfl⟩
  · have := eq_of_mem_ite_singleton h
    subst this
    exact ⟨rfl, rfl, Or.inr (Or.inl rfl)⟩
  · have := eq_of_mem_ite_singleton h
    subst this
    exact ⟨rfl, rfl, Or.inr (Or.inl rfl)⟩
  · obtain ⟨hr, hs, -, ht⟩ := mem_taskPhasesFindings h
    exact ⟨hr, hs, Or.inr (Or.inr ht)⟩

/-- Everything the cross-reference validator emits for a task row is a
warning-severity `skill_coverage` finding on that row's `RequiredSkills`
column, with the uncovered (normalized) skill in the message. -/
theorem mem_crossRowFindings {e : ValidationError} {wsk : List String} {i : Nat} {t : Task}
    (h : e ∈ crossRowFindings wsk i t) :
    e.row = some i ∧ e.severity = Severity.warning ∧ e.column = some "RequiredSkills" ∧
      e.type = "skill_coverage" := by
  unfold crossRowFindings at h
  split at h
  · rw [List.mem_flatMap] at h
    obtain ⟨sk, -, hsk⟩ := h
    have := eq_of_mem_ite_singleton hsk
    subst this
    exact ⟨rfl, rfl, rfl, rfl⟩
  · simp at h

/-- Every finding of the client validator loop sits on a row at or after
the starting index, has severity error, and is never `skill_coverage`. -/
theorem mem_validateClientsAux {e : ValidationError} {tids seen : List String} {idx : Nat}
    {cs : List Client} (h : e ∈ validateClientsAux tids seen idx cs) :
    (∃ j, idx ≤ j ∧ e.row = some j) ∧ e.severity = Severity.error ∧
      e.type ≠ "skill_coverage" := by
  induction cs generalizing seen idx with
  | nil => simp [validateClientsAux] at h
  | cons c rest ih =>
    unfold validateClientsAux clientRowFindings at h
    rw [List.append_assoc, List.mem_append] at h
    rcases h with h | h
    · have := eq_of_mem_ite_singleton h
      subst this
      exact ⟨⟨idx, Nat.le_refl idx, rfl⟩, rfl, by simp [mkDupFinding]⟩
    · rw [List.mem_append] at h
      rcases h with h | h
      · obtain ⟨hr, hs, ht⟩ := mem_clientRowRest h
        refine ⟨⟨idx, Nat.le_refl idx, hr⟩, hs, ?_⟩
        rcases ht with ht | ht | ht | ht <;> simp [ht]
      · obtain ⟨⟨j, hj, hr⟩, hs, ht⟩ := ih h
        exact ⟨⟨j, Nat.le_of_succ_le hj, hr⟩, hs, ht⟩

/-- Every finding of the worker validator loop sits on a row at or after
the starting index, has severity error, and is never `skill_coverage`. -/
theorem mem_validateWorkersAux {e : ValidationError} {seen : List String} {idx : Nat}
    {ws : List Worker} (h : e ∈ validateWorkersAux seen idx ws) :
    (∃ j, idx ≤ j ∧ e.row = some j) ∧ e.severity = Severity.error ∧
      e.type ≠ "skill_coverage" := by
  induction ws generalizing seen idx with
  | nil => simp [validateWorkersAux] at h
  | cons w rest ih =>
    unfold validateWorkersAux workerRowFindings at h
    rw [List.append_assoc, List.mem_append] at h
    rcases h with h | h
    · have := eq_of_mem_ite_singleton h
      subst this
      exact ⟨⟨idx, Nat.le_refl idx, rfl⟩, rfl, by simp [mkDupFinding]⟩
    · rw [List.mem_append] at h
      rcases h with h | h
      · obtain ⟨hr, hs, ht⟩ := mem_workerRowRest h
        refine ⟨⟨idx, Nat.le_refl idx, hr⟩, hs, ?_⟩
        rcases ht with ht | ht | ht <;> simp [ht]
      · obtain ⟨⟨j, hj, hr⟩, hs, ht⟩ := ih h
        exact ⟨⟨j, Nat.le_of_succ_le hj, hr⟩, hs, ht⟩

/-- Every finding of the task validator loop sits on a row at or after
the starting index, has severity error, and is never `skill_coverage`. -/
theorem mem_validateTasksAux {e : ValidationError} {seen : List String} {idx : Nat}
    {ts : List Task} (h : e ∈ validateTasksAux seen idx ts) :
    (∃ j, idx ≤ j ∧ e.row = some j) ∧ e.severity = Severity.error ∧
      e.type ≠ "skill_coverage" := by
  induction ts generalizing seen idx with
  | nil => simp [validateTasksAux] at h
  | cons t rest ih =>
    unfold validateTasksAux taskRowFindings at h
    rw [List.append_assoc, List.mem_append] at h
    rcases h with h | h
    · have := eq_of_mem_ite_singleton h
      subst this
      exact ⟨⟨idx, Nat.le_refl idx, rfl⟩, rfl, by simp [mkDupFinding]⟩
    · rw [List.mem_append] at h
      rcases h with h | h
      · obtain ⟨hr, hs, ht⟩ := mem_taskRowRest h
        refine ⟨⟨idx, Nat.le_refl idx, hr⟩, hs, ?_⟩
        rcases ht with ht | ht | ht <;> simp [ht]
      · obtain ⟨⟨j, hj, hr⟩, hs, ht⟩ := ih h
        exact ⟨⟨j, Nat.le_of_succ_le hj, hr⟩, hs, ht⟩

/-- Every finding of the cross-reference validator loop sits on a row at
or after the starting index and is a warning-severity `skill_coverage`
finding on the `RequiredSkills` column. -/
theorem mem_validateCrossAux {e : ValidationError} {wsk : List String} {idx : Nat}
    {ts : List Task} (h : e ∈ validateCrossAux wsk idx ts) :
    (∃ j, idx ≤ j ∧ e.row = some j) ∧ e.severity = Severity.warning ∧
      e.type = "skill_coverage" ∧ e.column = some "RequiredSkills" := by
  induction ts generalizing idx with
  | nil => simp [validateCrossAux] at h
  | cons t rest ih =>
    unfold validateCrossAux at h
    rw [List.mem_append] at h
    rcases h with h | h
    · obtain ⟨hr, hs, hc, ht⟩ := mem_crossRowFindings h
      exact ⟨⟨idx, Nat.le_refl idx, hr⟩, hs, ht, hc⟩
    · obtain ⟨⟨j, hj, hr⟩, hs, ht, hc⟩ := ih h
      exact ⟨⟨j, Nat.le_of_succ_le hj, hr⟩, hs, ht, hc⟩

/-- C7: every finding returned by `validateAll` has severity "error"
unless its kind is `skill_coverage`, and every `skill_coverage` finding
has severity "warning"; `skill_coverage` is the only warning-severity
kind any validator can emit. -/
theorem C7_severity_partition (cs : List Client) (ws : List Worker) (ts : List Task)
    (e : ValidationError) (h : e ∈ validateAll cs ws ts) :
    e.severity = Severity.warning ↔ e.type = "skill_coverage" := by
  unfold validateAll validateClients validateWorkers validateTasks validateCrossReferences at h
  simp only [List.mem_append] at h
  rcases h with ((h | h) | h) | h
  · obtain ⟨-, hs, ht⟩ := mem_validateClientsAux h
    exact iff_of_false (by rw [hs]; decide) ht
  · obtain ⟨-, hs, ht⟩ := mem_validateWorkersAux h
    exact iff_of_false (by rw [hs]; decide) ht
  · obtain ⟨-, hs, ht⟩ := mem_validateTasksAux h
    exact iff_of_false (by rw [hs]; decide) ht
  · obtain ⟨-, hs, ht, -⟩ := mem_validateCrossAux h
    exact iff_of_true hs ht

/-- The uncovered-skill warning used to witness the severity partition. -/
def findingC7 : ValidationError :=
  ⟨"skill_coverage", "No worker has required skill: js", some 0, some "RequiredSkills",
    some "tasks", Severity.warning⟩

/-- C7 witness: the severity partition evaluated on a concrete finding of
a concrete `validateAll` run. -/
theorem C7_severity_partition_witness :
    findingC7.severity = Severity.warning ↔ findingC7.type = "skill_coverage" :=
  C7_severity_partition [] [] [⟨"T1", "N", "", 1, "js", "[1]", 1⟩] findingC7 (by decide)

/-! ## C1: duplicate-identifier findings

The duplicate-id findings of each validator loop, isolated: row `idx + n`
is flagged exactly when its identifier is already in the running set. -/

/-- The duplicate-id findings a validator loop emits, on their own. -/
def dupFindingsList (pre col ent : String) (seen : List String) (idx : Nat) :
    List String → List ValidationError
  | [] => []
  | id :: rest =>
    (if seen.contains id then [mkDupFinding pre col ent idx id] else [])
      ++ dupFindingsList pre col ent (id :: seen) (idx + 1) rest

/-- Filtering the client validator's output down to `duplicate_id`
findings yields exactly the duplicate-id findings of the id sequence. -/
theorem filter_dup_validateClientsAux (tids seen : List String) (idx : Nat) (cs : List Client) :
    (validateClientsAux tids seen idx cs).filter (fun e => e.type == "duplicate_id")
      = dupFindingsList "Duplicate ClientID: " "ClientID" "clients" seen idx
          (cs.map (·.ClientID)) := by
  induction cs generalizing seen idx with
  | nil => rfl
  | cons c rest ih =>
    unfold validateClientsAux clientRowFindings
    rw [List.append_assoc, List.filter_append, List.filter_append,
      filter_ite_id _ _ _ (by simp [mkDupFinding]),
      List.filter_eq_nil_iff.2 (fun e he => by
        obtain ⟨-, -, ht⟩ := mem_clientRowRest he
        rcases ht with ht | ht | ht | ht <;> simp [ht]),
      ih]
    rfl

/-- Filtering the worker validator's output down to `duplicate_id`
findings yields exactly the duplicate-id findings of the id sequence. -/
theorem filter_dup_validateWorkersAux (seen : List String) (idx : Nat) (ws : List Worker) :
    (validateWorkersAux seen idx ws).filter (fun e => e.type == "duplicate_id")
      = dupFindingsList "Duplicate WorkerID: " "WorkerID" "workers" seen idx
          (ws.map (·.WorkerID)) := by
  induction ws generalizing seen idx with
  | nil => rfl
  | cons w rest ih =>
    unfold validateWorkersAux workerRowFindings
    rw [List.append_assoc, List.filter_append, List.filter_append,
      filter_ite_id _ _ _ (by simp [mkDupFinding]),
      List.filter_eq_nil_iff.2 (fun e he => by
        obtain ⟨-, -, ht⟩ := mem_workerRowRest he
        rcases ht with ht | ht | ht <;> simp [ht]),
      ih]
    rfl

/-- Filtering the task validator's output down to `duplicate_id`
findings yields exactly the duplicate-id findings of the id sequence. -/
theorem filter_dup_validateTasksAux (seen : List String) (idx : Nat) (ts : List Task) :
    (validateTasksAux seen idx ts).filter (fun e => e.type == "duplicate_id")
      = dupFindingsList "Duplicate TaskID: " "TaskID" "tasks" seen idx
          (ts.map (·.TaskID)) := by
  induction ts generalizing seen idx with
  | nil => rfl
  | cons t rest ih =>
    unfold validateTasksAux taskRowFindings
    rw [List.append_assoc, List.filter_append, List.filter_append,
      filter_ite_id _ _ _ (by simp [mkDupFinding]),
      List.filter_eq_nil_iff.2 (fun e he => by
        obtain ⟨-, -, ht⟩ := mem_taskRowRest he
        rcases ht with ht | ht | ht <;> simp [ht]),
      ih]
    rfl

/-- Counting the duplicate-id findings whose message names the value `v`:
one per occurrence of `v` when `v` is already in the running set, one per
occurrence after the first otherwise. -/
theorem dupFindingsList_count (pre col ent v : String) (seen : List String) (idx : Nat)
    (ids : List String) :
    (dupFindingsList pre col ent seen idx ids).countP (fun e => e.message == pre ++ v)
      = if v ∈ seen then ids.count v else ids.count v - 1 := by
  induction ids generalizing seen idx with
  | nil => simp [dupFindingsList]
  | cons id rest ih =>
    unfold dupFindingsList
    rw [List.countP_append, countP_ite, ih]
    by_cases hid : id = v
    · subst hid
      have hmsg : ((mkDupFinding pre col ent idx id).message == pre ++ id) = true := by
        simp [mkDupFinding]
      rw [hmsg]
      have hmem2 : id ∈ id :: seen := List.mem_cons_self id seen
      by_cases hv : id ∈ seen
      · have hc : seen.contains id = true := by simpa using hv
        simp [hc, hv, hmem2, List.count_cons_self]
        omega
      · have hc : ¬ (seen.contains id = true) := by simpa using hv
        simp [hc, hv, hmem2, List.count_cons_self]
    · have hmsg : ((mkDupFinding pre col ent idx id).message == pre ++ v) = false := by
        simp only [mkDupFinding, beq_eq_false_iff_ne, ne_eq]
        intro hc
        exact hid ((str_append_cancel pre id v).1 hc)
      have hcnt : (id :: rest).count v = rest.count v :=
        List.count_cons_of_ne (fun hh => hid hh.symm) rest
      have hmem : (v ∈ id :: seen) ↔ (v ∈ seen) := by
        constructor
        · intro hh
          rcases List.mem_cons.1 hh with hh | hh
          · exact absurd hh.symm hid
          · exact hh
        · intro hh
          exact List.mem_cons_of_mem _ hh
      rw [hmsg, hcnt]
      by_cases hv : v ∈ seen
      · rw [if_pos hv, if_pos (hmem.2 hv)]
        simp
      · rw [if_neg hv, if_neg (fun hc => hv (hmem.1 hc))]
        simp

/-- Every duplicate-id finding of the list sits on a row at or after the
starting index and carries the `duplicate_id` kind. -/
theorem mem_dupFindingsList {e : ValidationError} {pre col ent : String} {seen : List String}
    {idx : Nat} {ids : List String} (h : e ∈ dupFindingsList pre col ent seen idx ids) :
    (∃ j, idx ≤ j ∧ e.row = some j) ∧ e.type = "duplicate_id" := by
  induction ids generalizing seen idx with
  | nil => simp [dupFindingsList] at h
  | cons id rest ih =>
    unfold dupFindingsList at h
    rw [List.mem_append] at h
    rcases h with h | h
    · have := eq_of_mem_ite_singleton h
      subst this
      exact ⟨⟨idx, Nat.le_refl idx, rfl⟩, rfl⟩
    · obtain ⟨⟨j, hj, hr⟩, ht⟩ := ih h
      exact ⟨⟨j, Nat.le_of_succ_le hj, hr⟩, ht⟩

/-- Row `idx + i` carries a duplicate-id finding exactly when the `i`-th
identifier is in the running set or among the earlier identifiers. -/
theorem dupFindingsList_row_iff (pre col ent : String) (seen : List String) (idx i : Nat)
    (ids : List String) :
    (∃ e ∈ dupFindingsList pre col ent seen idx ids, e.row = some (idx + i)) ↔
      (∃ id, ids[i]? = some id ∧ (id ∈ seen ∨ id ∈ ids.take i)) := by
  induction ids generalizing seen idx i with
  | nil => simp [dupFindingsList]
  | cons id rest ih =>
    cases i with
    | zero =>
      simp only [List.getElem?_cons_zero, Option.some_inj, List.take_zero,
        List.not_mem_nil, or_false]
      constructor
      · rintro ⟨e, he, hrow⟩
        unfold dupFindingsList at he
        rw [List.mem_append] at he
        rcases he with he | he
        · by_cases hc : seen.contains id = true
          · exact ⟨id, rfl, by simpa using hc⟩
          · rw [if_neg hc] at he
            simp at he
        · obtain ⟨⟨j, hj, hr⟩, -⟩ := mem_dupFindingsList he
          rw [hr] at hrow
          simp only [Option.some_inj] at hrow
          omega
      · rintro ⟨id', hid', hmem⟩
        subst hid'
        refine ⟨mkDupFinding pre col ent idx id, ?_, by simp [mkDupFinding]⟩
        unfold dupFindingsList
        rw [List.mem_append]
        left
        rw [if_pos (by simpa using hmem)]
        simp
    | succ i' =>
      simp only [List.getElem?_cons_succ, List.take_succ_cons, List.mem_cons]
      have harith : idx + (i' + 1) = (idx + 1) + i' := by omega
      constructor
      · rintro ⟨e, he, hrow⟩
        unfold dupFindingsList at he
        rw [List.mem_append] at he
        rcases he with he | he
        · have := eq_of_mem_ite_singleton he
          subst this
          simp only [mkDupFinding, Option.some_inj] at hrow
          omega
        · have := (ih (id :: seen) (idx + 1) i').1 ⟨e, he, by rw [hrow, harith]⟩
          obtain ⟨id', hid', hmem⟩ := this
          refine ⟨id', hid', ?_⟩
          simp only [List.mem_cons] at hmem
          tauto
      · rintro ⟨id', hid', hmem⟩
        have hmem' : id' ∈ id :: seen ∨ id' ∈ rest.take i' := by
          simp only [List.mem_cons]
          tauto
        obtain ⟨e, he, hrow⟩ := (ih (id :: seen) (idx + 1) i').2 ⟨id', hid', hmem'⟩
        refine ⟨e, ?_, by rw [hrow, harith]⟩
        unfold dupFindingsList
        rw [List.mem_append]
        right
        exact he

/-- The duplicate-id behaviour of `validateClients`: `k - 1` findings for
a value occurring `k` times, and row `i` is flagged exactly when its
identifier already occurred earlier. -/
theorem validateClients_dup_spec (cs : List Client) (ts : List Task) (v : String) :
    (validateClients cs ts).countP
        (fun e => e.type == "duplicate_id" && e.message == "Duplicate ClientID: " ++ v)
      = (cs.map (·.ClientID)).count v - 1
    ∧ ∀ i : Nat, ((∃ e ∈ validateClients cs ts, e.type = "duplicate_id" ∧ e.row = some i) ↔
        (∃ id, (cs.map (·.ClientID))[i]? = some id ∧ id ∈ (cs.map (·.ClientID)).take i)) := by
  have hf := filter_dup_validateClientsAux (ts.map (·.TaskID)) [] 0 cs
  constructor
  · have h1 : (validateClients cs ts).countP
        (fun e => e.type == "duplicate_id" && e.message == "Duplicate ClientID: " ++ v)
        = ((validateClients cs ts).filter (fun e => e.type == "duplicate_id")).countP
          (fun e => e.message == "Duplicate ClientID: " ++ v) := by
      rw [List.countP_filter]
      congr 1
      funext e
      exact Bool.and_comm _ _
    rw [h1]
    show ((validateClientsAux (ts.map (·.TaskID)) [] 0 cs).filter _).countP _ = _
    rw [hf, dupFindingsList_count]
    simp
  · intro i
    constructor
    · rintro ⟨e, he, ht, hr⟩
      have hef : e ∈ (validateClientsAux (ts.map (·.TaskID)) [] 0 cs).filter
          (fun e => e.type == "duplicate_id") := List.mem_filter.2 ⟨he, by simp [ht]⟩
      rw [hf] at hef
      obtain ⟨id, hid, hmem⟩ :=
        (dupFindingsList_row_iff _ _ _ [] 0 i _).1 ⟨e, hef, by simpa using hr⟩
      exact ⟨id, hid, by simpa using hmem⟩
    · rintro ⟨id, hid, hmem⟩
      obtain ⟨e, hef, hrow⟩ :=
        (dupFindingsList_row_iff _ _ _ [] 0 i _).2 ⟨id, hid, Or.inr hmem⟩
      rw [← hf] at hef
      have hm := List.mem_filter.1 hef
      exact ⟨e, hm.1, by simpa using hm.2, by simpa using hrow⟩

/-- The duplicate-id behaviour of `validateWorkers`. -/
theorem validateWorkers_dup_spec (ws : List Worker) (v : String) :
    (validateWorkers ws).countP
        (fun e => e.type == "duplicate_id" && e.message == "Duplicate WorkerID: " ++ v)
      = (ws.map (·.WorkerID)).count v - 1
    ∧ ∀ i : Nat, ((∃ e ∈ validateWorkers ws, e.type = "duplicate_id" ∧ e.row = some i) ↔
        (∃ id, (ws.map (·.WorkerID))[i]? = some id ∧ id ∈ (ws.map (·.WorkerID)).take i)) := by
  have hf := filter_dup_validateWorkersAux [] 0 ws
  constructor
  · have h1 : (validateWorkers ws).countP
        (fun e => e.type == "duplicate_id" && e.message == "Duplicate WorkerID: " ++ v)
        = ((validateWorkers ws).filter (fun e => e.type == "duplicate_id")).countP
          (fun e => e.message == "Duplicate WorkerID: " ++ v) := by
      rw [List.countP_filter]
      congr 1
      funext e
      exact Bool.and_comm _ _
    rw [h1]
    show ((validateWorkersAux [] 0 ws).filter _).countP _ = _
    rw [hf, dupFindingsList_count]
    simp
  · intro i
    constructor
    · rintro ⟨e, he, ht, hr⟩
      have hef : e ∈ (validateWorkersAux [] 0 ws).filter
          (fun e => e.type == "duplicate_id") := List.mem_filter.2 ⟨he, by simp [ht]⟩
      rw [hf] at hef
      obtain ⟨id, hid, hmem⟩ :=
        (dupFindingsList_row_iff _ _ _ [] 0 i _).1 ⟨e, hef, by simpa using hr⟩
      exact ⟨id, hid, by simpa using hmem⟩
    · rintro ⟨id, hid, hmem⟩
      obtain ⟨e, hef, hrow⟩ :=
        (dupFindingsList_row_iff _ _ _ [] 0 i _).2 ⟨id, hid, Or.inr hmem⟩
      rw [← hf] at hef
      have hm := List.mem_filter.1 hef
      exact ⟨e, hm.1, by simpa using hm.2, by simpa using hrow⟩

/-- The duplicate-id behaviour of `validateTasks`. -/
theorem validateTasks_dup_spec (ts : List Task) (v : String) :
    (validateTasks ts).countP
        (fun e => e.type == "duplicate_id" && e.message == "Duplicate TaskID: " ++ v)
      = (ts.map (·.TaskID)).count v - 1
    ∧ ∀ i : Nat, ((∃ e ∈ validateTasks ts, e.type = "duplicate_id" ∧ e.row = some i) ↔
        (∃ id, (ts.map (·.TaskID))[i]? = some id ∧ id ∈ (ts.map (·.TaskID)).take i)) := by
  have hf := filter_dup_validateTasksAux [] 0 ts
  constructor
  · have h1 : (validateTasks ts).countP
        (fun e => e.type == "duplicate_id" && e.message == "Duplicate TaskID: " ++ v)
        = ((validateTasks ts).filter (fun e => e.type == "duplicate_id")).countP
          (fun e => e.message == "Duplicate TaskID: " ++ v) := by
      rw [List.countP_filter]
      congr 1
      funext e
      exact Bool.and_comm _ _
    rw [h1]
    show ((validateTasksAux [] 0 ts).filter _).countP _ = _
    rw [hf, dupFindingsList_count]
    simp
  · intro i
    constructor
    · rintro ⟨e, he, ht, hr⟩
      have hef : e ∈ (validateTasksAux [] 0 ts).filter
          (fun e => e.type == "duplicate_id") := List.mem_filter.2 ⟨he, by simp [ht]⟩
      rw [hf] at hef
      obtain ⟨id, hid, hmem⟩ :=
        (dupFindingsList_row_iff _ _ _ [] 0 i _).1 ⟨e, hef, by simpa using hr⟩
      exact ⟨id, hid, by simpa using hmem⟩
    · rintro ⟨id, hid, hmem⟩
      obtain ⟨e, hef, hrow⟩ :=
        (dupFindingsList_row_iff _ _ _ [] 0 i _).2 ⟨id, hid, Or.inr hmem⟩
      rw [← hf] at hef
      have hm := List.mem_filter.1 hef
      exact ⟨e, hm.1, by simpa using hm.2, by simpa using hrow⟩

/-- C1: in every collection, an identifier value occurring `k` times gets
exactly `k - 1` duplicate_id findings (counted by the message naming that
value); a row carries a duplicate_id finding (with its own row index)
exactly when the same identifier already occurred at a lower row index,
so the first occurrence is never flagged and every subsequent occurrence
is flagged individually. -/
theorem C1_duplicate_id_findings (cs : List Client) (ts0 : List Task) (ws : List Worker)
    (ts : List Task) (v : String) :
    ((validateClients cs ts0).countP
        (fun e => e.type == "duplicate_id" && e.message == "Duplicate ClientID: " ++ v)
      = (cs.map (·.ClientID)).count v - 1
    ∧ ∀ i : Nat, ((∃ e ∈ validateClients cs ts0, e.type = "duplicate_id" ∧ e.row = some i) ↔
        (∃ id, (cs.map (·.ClientID))[i]? = some id ∧ id ∈ (cs.map (·.ClientID)).take i)))
    ∧ ((validateWorkers ws).countP
        (fun e => e.type == "duplicate_id" && e.message == "Duplicate WorkerID: " ++ v)
      = (ws.map (·.WorkerID)).count v - 1
    ∧ ∀ i : Nat, ((∃ e ∈ validateWorkers ws, e.type = "duplicate_id" ∧ e.row = some i) ↔
        (∃ id, (ws.map (·.WorkerID))[i]? = some id ∧ id ∈ (ws.map (·.WorkerID)).take i)))
    ∧ ((validateTasks ts).countP
        (fun e => e.type == "duplicate_id" && e.message == "Duplicate TaskID: " ++ v)
      = (ts.map (·.TaskID)).count v - 1
    ∧ ∀ i : Nat, ((∃ e ∈ validateTasks ts, e.type = "duplicate_id" ∧ e.row = some i) ↔
        (∃ id, (ts.map (·.TaskID))[i]? = some id ∧ id ∈ (ts.map (·.TaskID)).take i))) :=
  ⟨validateClients_dup_spec cs ts0 v, validateWorkers_dup_spec ws v,
    validateTasks_dup_spec ts v⟩

/-! ## C3: JSON-array `PreferredPhases` values are not element-checked -/

/-- Every finding of one task row sits on that row. -/
theorem mem_taskRowFindings_row {e : ValidationError} {d : Bool} {j : Nat} {t : Task}
    (h : e ∈ taskRowFindings d j t) : e.row = some j := by
  unfold taskRowFindings at h
  rw [List.mem_append] at h
  rcases h with h | h
  · have := eq_of_mem_ite_singleton h
    subst this
    rfl
  · exact (mem_taskRowRest h).1

/-- The `malformed_list` findings of one task row are exactly those of
its `PreferredPhases` check. -/
theorem countP_ml_taskRowFindings (d : Bool) (j : Nat) (t : Task) :
    (taskRowFindings d j t).countP (fun e => e.type == "malformed_list")
      = (taskPhasesFindings j t.PreferredPhases).countP
          (fun e => e.type == "malformed_list") := by
  simp [taskRowFindings, taskRowRest, List.countP_append, countP_ite, mkDupFinding]

/-- The `malformed_list` findings of the task loop at row `idx + i` are
exactly the `PreferredPhases` findings of the task at position `i`. -/
theorem countP_ml_row_validateTasksAux (seen : List String) (idx i : Nat) (ts : List Task)
    (t : Task) (h : ts[i]? = some t) :
    (validateTasksAux seen idx ts).countP
        (fun e => e.type == "malformed_list" && e.row == some (idx + i))
      = (taskPhasesFindings (idx + i) t.PreferredPhases).countP
          (fun e => e.type == "malformed_list") := by
  induction ts generalizing seen idx i with
  | nil => simp at h
  | cons t0 rest ih =>
    unfold validateTasksAux
    rw [List.countP_append]
    cases i with
    | zero =>
      rw [List.getElem?_cons_zero, Option.some_inj] at h
      subst h
      have h1 : (taskRowFindings (seen.contains t0.TaskID) idx t0).countP
          (fun e => e.type == "malformed_list" && e.row == some (idx + 0))
          = (taskRowFindings (seen.contains t0.TaskID) idx t0).countP
            (fun e => e.type == "malformed_list") := by
        apply List.countP_congr
        intro e he
        rw [mem_taskRowFindings_row he]
        simp
      have h2 : (validateTasksAux (t0.TaskID :: seen) (idx + 1) rest).countP
          (fun e => e.type == "malformed_list" && e.row == some (idx + 0)) = 0 := by
        rw [List.countP_eq_zero]
        intro e he
        obtain ⟨⟨j, hj, hr⟩, -, -⟩ := mem_validateTasksAux he
        intro hcontra
        rw [Bool.and_eq_true] at hcontra
        have hrow := hcontra.2
        rw [hr] at hrow
        have : j = idx + 0 := by simpa using hrow
        omega
      rw [h1, h2, countP_ml_taskRowFindings]
      simp
    | succ i' =>
      have h1 : (taskRowFindings (seen.contains t0.TaskID) idx t0).countP
          (fun e => e.type == "malformed_list" && e.row == some (idx + (i' + 1))) = 0 := by
        rw [List.countP_eq_zero]
        intro e he
        intro hcontra
        rw [Bool.and_eq_true] at hcontra
        have hrow := hcontra.2
        rw [mem_taskRowFindings_row he] at hrow
        simp at hrow
      rw [h1, show idx + (i' + 1) = (idx + 1) + i' from by omega,
        ih (t0.TaskID :: seen) (idx + 1) i' (by simpa using h)]
      omega

/-- When `PreferredPhases` parses as a JSON array the check emits
nothing, whatever the elements are. -/
theorem taskPhasesFindings_json_arr {s : String} {l : List Json}
    (h : jsonParse s = some (Json.arr l)) (i : Nat) : taskPhasesFindings i s = [] := by
  unfold taskPhasesFindings
  split
  · rw [h]
  · rfl

/-- A task whose `PreferredPhases` is the JSON array `[0]` — an element
below the minimum of 1. -/
def taskC3 : Task := ⟨"T1", "Task One", "", 1, "", "[0]", 1⟩

/-- C3 counterexample: the claim says a parsed JSON array containing a
sub-minimum element yields a `malformed_list` finding for that row; on
the code the task with `PreferredPhases = "[0]"` passes validation with
no findings at all. -/
theorem C3_phases_counterexample :
    jsonParse taskC3.PreferredPhases = some (Json.arr [Json.num true 0])
      ∧ validateTasks [taskC3] = [] := by
  exact ⟨rfl, rfl⟩

/-- C3 amended: for every Task whose `PreferredPhases` string parses as a
JSON array, validateTasks emits no `malformed_list` finding for that
task's row at all — the array's elements are never inspected, so
non-integer or sub-minimum elements pass validation silently (only
`Array.isArray` is checked). -/
theorem C3_phases_json_array_unchecked (ts : List Task) (i : Nat) (t : Task) (l : List Json)
    (hget : ts[i]? = some t) (hjson : jsonParse t.PreferredPhases = some (Json.arr l)) :
    (validateTasks ts).countP (fun e => e.type == "malformed_list" && e.row == some i) = 0 := by
  have hmain := countP_ml_row_validateTasksAux [] 0 i ts t hget
  simp only [Nat.zero_add] at hmain
  rw [show validateTasks ts = validateTasksAux [] 0 ts from rfl, hmain,
    taskPhasesFindings_json_arr hjson]
  rfl

/-- C3 witness: the amended statement at the concrete task with
`PreferredPhases = "[0]"`. -/
theorem C3_phases_json_array_unchecked_witness :
    (validateTasks [taskC3]).countP
      (fun e => e.type == "malformed_list" && e.row == some 0) = 0 :=
  C3_phases_json_array_unchecked [taskC3] 0 taskC3 [Json.num true 0] rfl rfl

/-! ## C10: non-array JSON `AvailableSlots` never reaches the comma fallback -/

/-- When `AvailableSlots` parses as JSON but not as an array, the check
emits exactly the one "must be an array" finding — the comma-separated
fallback is not attempted. -/
theorem workerSlotsFindings_non_array {s : String} {j : Json} (h : jsonParse s = some j)
    (hj : j.isArr = false) (i : Nat) :
    workerSlotsFindings i s
      = [⟨"malformed_list", "AvailableSlots must be an array", some i,
          some "AvailableSlots", some "workers", .error⟩] := by
  have hs : s ≠ "" := by
    intro he
    subst he
    exact Option.noConfusion (h.symm.trans (show jsonParse "" = none from rfl))
  unfold workerSlotsFindings
  rw [if_pos hs, h]
  cases j with
  | arr l => simp [Json.isArr] at hj
  | null => rfl
  | bool b => rfl
  | num a b => rfl
  | str s2 => rfl
  | obj o => rfl

/-- C10: for every Worker whose `AvailableSlots` string is valid JSON but
does not denote an array, `validateWorkers` emits exactly one
`malformed_list` finding ("AvailableSlots must be an array") and no
finding of the comma-separated fallback ("AvailableSlots contains
invalid numbers") — the fallback runs only when `JSON.parse` throws, so a
value acceptable under its comma interpretation is still rejected when it
parses as non-array JSON. -/
theorem C10_non_array_json_slots (w : Worker) (j : Json)
    (h : jsonParse w.AvailableSlots = some j) (hj : j.isArr = false) :
    (validateWorkers [w]).countP
        (fun e => e.type == "malformed_list"
          && e.message == "AvailableSlots must be an array") = 1
    ∧ (validateWorkers [w]).countP
        (fun e => e.message == "AvailableSlots contains invalid numbers") = 0 := by
  constructor
  · have hred : (validateWorkers [w]).countP
        (fun e => e.type == "malformed_list"
          && e.message == "AvailableSlots must be an array")
        = (workerSlotsFindings 0 w.AvailableSlots).countP
          (fun e => e.type == "malformed_list"
            && e.message == "AvailableSlots must be an array") := by
      simp [validateWorkers, validateWorkersAux, workerRowFindings, workerRowRest,
        List.countP_append, countP_ite, mkDupFinding]
    rw [hred, workerSlotsFindings_non_array h hj]
    rfl
  · have hred : (validateWorkers [w]).countP
        (fun e => e.message == "AvailableSlots contains invalid numbers")
        = (workerSlotsFindings 0 w.AvailableSlots).countP
          (fun e => e.message == "AvailableSlots contains invalid numbers") := by
      simp [validateWorkers, validateWorkersAux, workerRowFindings, workerRowRest,
        List.countP_append, countP_ite, mkDupFinding]
    rw [hred, workerSlotsFindings_non_array h hj]
    rfl

/-- A worker whose `AvailableSlots` is `"5"`: valid JSON, not an array,
yet acceptable under the comma-separated interpretation. -/
def workerC10 : Worker := ⟨"W2", "Worker Two", "", "5", 2, "", 1⟩

/-- C10 witness: at `AvailableSlots = "5"` the validator emits the one
"must be an array" finding and no comma-fallback finding, even though
every comma token of `"5"` is an accepted positive integer. -/
theorem C10_non_array_json_slots_witness :
    ((validateWorkers [workerC10]).countP
        (fun e => e.type == "malformed_list"
          && e.message == "AvailableSlots must be an array") = 1
    ∧ (validateWorkers [workerC10]).countP
        (fun e => e.message == "AvailableSlots contains invalid numbers") = 0)
    ∧ ((splitOnChar ',' workerC10.AvailableSlots.data).all
        (fun tk => match parseIntJS (jsTrim tk) with
          | some n => decide (1 ≤ n)
          | none => false)) = true :=
  ⟨C10_non_array_json_slots workerC10 (Json.num true 5) rfl rfl, by decide⟩

/-! ## C8: case-insensitive skill coverage -/

/-- The normalized (trimmed, lower-cased) required-skill tags of a task;
empty `RequiredSkills` contributes nothing (the source's truthiness
guard). -/
def normalizedReqs (t : Task) : List String :=
  if t.RequiredSkills = "" then [] else splitTrimLower t.RequiredSkills

/-- The footprint of one skill-coverage warning: kind, row, column and the
message naming the normalized skill. -/
def skillPred (i : Nat) (sk : String) : ValidationError → Bool :=
  fun e => e.type == "skill_coverage" && e.row == some i
    && e.column == some "RequiredSkills"
    && e.message == "No worker has required skill: " ++ sk

/-- One task row emits one warning per occurrence of `sk` among its
normalized required tags when `sk` is non-empty and uncovered, and none
otherwise. -/
theorem countP_skill_crossRowFindings (wsk : List String) (i : Nat) (t : Task) (sk : String) :
    (crossRowFindings wsk i t).countP (skillPred i sk)
      = if sk ≠ "" ∧ ¬ (wsk.contains sk = true) then (normalizedReqs t).count sk else 0 := by
  unfold crossRowFindings normalizedReqs
  by_cases hs : t.RequiredSkills = ""
  · rw [if_neg (by simp [hs]), if_pos hs]
    simp
  · rw [if_pos hs, if_neg hs]
    generalize splitTrimLower t.RequiredSkills = reqs
    induction reqs with
    | nil => simp
    | cons sk' rest ihr =>
      rw [List.flatMap_cons, List.countP_append, countP_ite, ihr]
      by_cases hsk : sk' = sk
      · subst hsk
        have hp : skillPred i sk'
            ⟨"skill_coverage", "No worker has required skill: " ++ sk', some i,
              some "RequiredSkills", some "tasks", .warning⟩ = true := by
          simp [skillPred]
        rw [hp]
        by_cases hcond : sk' ≠ "" ∧ ¬ (wsk.contains sk' = true)
        · rw [if_pos hcond, if_pos hcond, if_pos hcond, List.count_cons_self]
          simp [Nat.add_comm]
        · rw [if_neg hcond, if_neg hcond, if_neg hcond]
      · have hp : skillPred i sk
            ⟨"skill_coverage", "No worker has required skill: " ++ sk', some i,
              some "RequiredSkills", some "tasks", .warning⟩ = false := by
          simp only [skillPred, Bool.and_eq_false_iff]
          right
          simp only [beq_eq_false_iff_ne, ne_eq]
          intro hc
          exact hsk ((str_append_cancel _ _ _).1 hc)
        rw [hp]
        have hcnt : (sk' :: rest).count sk = rest.count sk :=
          List.count_cons_of_ne (fun hh => hsk hh.symm) rest
        rw [hcnt]
        simp

/-- The warnings matching a row's footprint all come from that row's
task. -/
theorem countP_skill_row_validateCrossAux (wsk : List String) (idx i : Nat) (ts : List Task)
    (t : Task) (h : ts[i]? = some t) (sk : String) :
    (validateCrossAux wsk idx ts).countP (skillPred (idx + i) sk)
      = (crossRowFindings wsk (idx + i) t).countP (skillPred (idx + i) sk) := by
  induction ts generalizing idx i with
  | nil => simp at h
  | cons t0 rest ih =>
    unfold validateCrossAux
    rw [List.countP_append]
    cases i with
    | zero =>
      rw [List.getElem?_cons_zero, Option.some_inj] at h
      subst h
      have h2 : (validateCrossAux wsk (idx + 1) rest).countP (skillPred (idx + 0) sk) = 0 := by
        rw [List.countP_eq_zero]
        intro e he
        obtain ⟨⟨j, hj, hr⟩, -, -, -⟩ := mem_validateCrossAux he
        intro hcontra
        simp only [skillPred, Bool.and_eq_true] at hcontra
        have hrow := hcontra.1.1.2
        rw [hr] at hrow
        have : j = idx + 0 := by simpa using hrow
        omega
      rw [h2]
      simp
    | succ i' =>
      have h1 : (crossRowFindings wsk idx t0).countP (skillPred (idx + (i' + 1)) sk) = 0 := by
        rw [List.countP_eq_zero]
        intro e he
        intro hcontra
        simp only [skillPred, Bool.and_eq_true] at hcontra
        have hrow := hcontra.1.1.2
        rw [(mem_crossRowFindings he).1] at hrow
        simp at hrow
      rw [h1, show idx + (i' + 1) = (idx + 1) + i' from by omega,
        ih (idx + 1) i' (by simpa using h)]
      omega

/-- C8: skill coverage is checked case-insensitively over the union of
all workers' trimmed, lower-cased skill tags.  For a task at row `i`
whose normalized required tags contain the non-empty tag `sk` exactly
once: when no worker offers `sk` (in any letter case) the report carries
exactly one `skill_coverage` warning on that row's `RequiredSkills`
column naming `sk`; when some worker lists the skill in any letter case
the report carries none; and every finding of the cross-reference
validator has severity warning (it contributes zero errors). -/
theorem C8_skill_coverage (cs : List Client) (ws : List Worker) (ts : List Task) (i : Nat)
    (t : Task) (sk : String) (hget : ts[i]? = some t)
    (hcount : (normalizedReqs t).count sk = 1) (hsk : sk ≠ "") :
    (((allWorkerSkills ws).contains sk = false →
        (validateCrossReferences cs ws ts).countP (skillPred i sk) = 1)
    ∧ ((∃ w ∈ ws, w.Skills ≠ "" ∧ ∃ raw ∈ splitOnChar ',' w.Skills.data,
          strOf (toLowerL (jsTrim raw)) = sk) →
        (validateCrossReferences cs ws ts).countP (skillPred i sk) = 0)
    ∧ ∀ e ∈ validateCrossReferences cs ws ts, e.severity = Severity.warning) := by
  have hred := countP_skill_row_validateCrossAux (allWorkerSkills ws) 0 i ts t hget sk
  simp only [Nat.zero_add] at hred
  refine ⟨?_, ?_, ?_⟩
  · intro hnc
    show (validateCrossAux (allWorkerSkills ws) 0 ts).countP _ = 1
    rw [hred, countP_skill_crossRowFindings,
      if_pos ⟨hsk, fun hq => by rw [hnc] at hq; exact Bool.noConfusion hq⟩, hcount]
  · rintro ⟨w, hw, hwne, raw, hraw, hrawsk⟩
    have hmem : sk ∈ allWorkerSkills ws := by
      unfold allWorkerSkills
      rw [List.mem_flatMap]
      refine ⟨w, hw, ?_⟩
      rw [if_pos hwne]
      exact List.mem_map.2 ⟨raw, hraw, hrawsk⟩
    show (validateCrossAux (allWorkerSkills ws) 0 ts).countP _ = 0
    rw [hred, countP_skill_crossRowFindings, if_neg]
    rintro ⟨-, hc⟩
    exact hc (by simpa using hmem)
  · intro e he
    exact (mem_validateCrossAux he).2.1

/-- A task requiring the skill "Rust". -/
def taskC8 : Task := ⟨"T9", "Task Nine", "", 1, "Rust", "[1]", 1⟩

/-- A worker offering "RUST" — the same skill in another letter case. -/
def workerC8 : Worker := ⟨"W9", "Worker Nine", "RUST", "[1]", 1, "", 0⟩

/-- C8 witness: with no workers, the task requiring "Rust" gets exactly
one uncovered-skill warning; adding the worker whose skills list says
"RUST" removes it. -/
theorem C8_skill_coverage_witness :
    (validateCrossReferences [] [] [taskC8]).countP (skillPred 0 "rust") = 1
    ∧ (validateCrossReferences [] [workerC8] [taskC8]).countP (skillPred 0 "rust") = 0 :=
  ⟨(C8_skill_coverage [] [] [taskC8] 0 taskC8 "rust" rfl (by decide) (by decide)).1 (by decide),
   (C8_skill_coverage [] [workerC8] [taskC8] 0 taskC8 "rust" rfl (by decide) (by decide)).2.1
     ⟨workerC8, by simp, by decide, "RUST".data, by decide, by decide⟩⟩

/-! ## C4 and C5: the correction applier -/

/-- Reading with `getD` after `set` at the written index. -/
theorem getD_set_self {α : Type} (l : List α) (i : Nat) (x d : α) (h : i < l.length) :
    (l.set i x).getD i d = x := by
  simp [List.getD, List.getElem?_set_eq_of_lt x h]

/-- Reading with `getD` after `set` at another index. -/
theorem getD_set_ne {α : Type} (l : List α) (i j : Nat) (x d : α) (h : i ≠ j) :
    (l.set i x).getD j d = l.getD j d := by
  simp [List.getD, List.getElem?_set_ne h]

/-- Positions of a duplicate-free list hold distinct values. -/
theorem nodup_getElem?_ne {α : Type} {l : List α} (hnd : l.Nodup) {i j : Nat} {a b : α}
    (hi : l[i]? = some a) (hj : l[j]? = some b) (hij : i ≠ j) : a ≠ b := by
  intro hab
  subst hab
  obtain ⟨hi1, hi2⟩ := List.getElem?_eq_some.1 hi
  obtain ⟨hj1, hj2⟩ := List.getElem?_eq_some.1 hj
  exact hij ((List.Nodup.getElem_inj_iff hnd).mp (hi2.trans hj2.symm))

/-- Property write then read of the same field. -/
theorem getField_setFields_self {α : Type} (r : List (String × α)) (f : String) (v : α) :
    getField (setFields r f v) f = some v := by
  induction r with
  | nil => simp [setFields, getField]
  | cons kv rest ih =>
    obtain ⟨k, w⟩ := kv
    unfold setFields
    by_cases hk : k = f
    · rw [if_pos hk]
      unfold getField
      rw [if_pos hk]
    · rw [if_neg hk]
      unfold getField
      rw [if_neg hk]
      exact ih

/-- Property write then read of a different field. -/
theorem getField_setFields_ne {α : Type} (r : List (String × α)) (f g : String) (v : α)
    (h : g ≠ f) : getField (setFields r f v) g = getField r g := by
  induction r with
  | nil =>
    unfold setFields getField
    rw [if_neg (fun hh => h hh.symm)]
    rfl
  | cons kv rest ih =>
    obtain ⟨k, w⟩ := kv
    unfold setFields
    by_cases hk : k = f
    · rw [if_pos hk]
      unfold getField
      subst hk
      rw [if_neg (fun hh => h hh.symm), if_neg (fun hh => h hh.symm)]
    · rw [if_neg hk]
      unfold getField
      by_cases hg : k = g
      · rw [if_pos hg, if_pos hg]
      · rw [if_neg hg, if_neg hg]
        exact ih

/-- Reading a collection's row at `i` follows the reference stored
there. -/
theorem derefColl_getD {α : Type} (heap : List (List (String × α))) (refs : List Nat)
    (i r : Nat) (hr : refs[i]? = some r) :
    (derefColl heap refs).getD i [] = heap.getD r [] := by
  unfold derefColl
  simp [List.getD, List.getElem?_map, hr]

/-- Updating the row object a duplicate-free collection holds at `i`
changes, through that collection, exactly position `i`. -/
theorem derefColl_set {α : Type} (heap : List (List (String × α))) (refs : List Nat)
    (i r : Nat) (f : String) (v : α) (hnd : refs.Nodup)
    (hlt : ∀ ρ ∈ refs, ρ < heap.length) (hr : refs[i]? = some r) :
    derefColl (heap.set r (setFields (heap.getD r []) f v)) refs
      = (derefColl heap refs).set i (setFields (heap.getD r []) f v) := by
  apply List.ext_getElem?_iff.mpr
  intro n
  by_cases hn : n = i
  · subst hn
    have hrlen : r < heap.length := hlt r (List.getElem?_mem hr)
    have hlen : n < refs.length := (List.getElem?_eq_some.1 hr).1
    rw [show (derefColl heap refs).set n (setFields (heap.getD r []) f v)
        = (refs.map (fun ρ => heap.getD ρ [])).set n (setFields (heap.getD r []) f v)
      from rfl]
    rw [List.getElem?_set_eq_of_lt _ (by simpa using hlen)]
    unfold derefColl
    rw [List.getElem?_map, hr]
    show some ((heap.set r (setFields (heap.getD r []) f v)).getD r []) = _
    rw [getD_set_self _ _ _ _ hrlen]
  · rw [show (derefColl heap refs).set i (setFields (heap.getD r []) f v)
        = (refs.map (fun ρ => heap.getD ρ [])).set i (setFields (heap.getD r []) f v)
      from rfl]
    rw [List.getElem?_set_ne (fun hh => hn hh.symm)]
    unfold derefColl
    rw [List.getElem?_map, List.getElem?_map]
    cases hq : refs[n]? with
    | none => rfl
    | some ρ =>
      have hρr : ρ ≠ r := nodup_getElem?_ne hnd hq hr hn
      show some ((heap.set r (setFields (heap.getD r []) f v)).getD ρ []) = _
      rw [getD_set_ne _ _ _ _ _ (fun hh => hρr hh.symm)]
      rfl

/-- What one in-bounds `handleApplyFix` call does, for each of the three
entity tags: it succeeds, the returned collection is the same reference
array, the heap is patched at the shared row object, and through the
collection exactly row `i` changed to the field-updated row. -/
theorem handleApplyFix_spec {α : Type} (st : PageState α) (et : String) (i : Nat)
    (f : String) (v : α) (r : Nat)
    (het : et = "clients" ∨ et = "workers" ∨ et = "tasks")
    (hnd : (collOf st et).Nodup)
    (hlt : ∀ ρ ∈ collOf st et, ρ < st.heap.length)
    (hr : (collOf st et)[i]? = some r) :
    ∃ st' : PageState α, handleApplyFix st et i f v = some st'
      ∧ collOf st' et = collOf st et
      ∧ st'.heap = st.heap.set r (setFields (st.heap.getD r []) f v)
      ∧ derefColl st'.heap (collOf st et)
        = (derefColl st.heap (collOf st et)).set i
            (setFields ((derefColl st.heap (collOf st et)).getD i []) f v) := by
  rcases het with het | het | het <;> subst het
  · have hcoll : collOf st "clients" = st.clients := rfl
    rw [hcoll] at hnd hlt hr
    have happ : applyAt st.heap st.clients i f v
        = some (st.heap.set r (setFields (st.heap.getD r []) f v), st.clients) := by
      unfold applyAt
      rw [hr]
    refine ⟨{ st with heap := st.heap.set r (setFields (st.heap.getD r []) f v) },
      ?_, rfl, rfl, ?_⟩
    · unfold handleApplyFix
      rw [if_pos rfl, happ]
    · rw [hcoll, derefColl_getD st.heap st.clients i r hr]
      exact derefColl_set st.heap st.clients i r f v hnd hlt hr
  · have hcoll : collOf st "workers" = st.workers := rfl
    rw [hcoll] at hnd hlt hr
    have happ : applyAt st.heap st.workers i f v
        = some (st.heap.set r (setFields (st.heap.getD r []) f v), st.workers) := by
      unfold applyAt
      rw [hr]
    refine ⟨{ st with heap := st.heap.set r (setFields (st.heap.getD r []) f v) },
      ?_, rfl, rfl, ?_⟩
    · unfold handleApplyFix
      rw [if_neg (by decide), if_pos rfl, happ]
    · rw [hcoll, derefColl_getD st.heap st.workers i r hr]
      exact derefColl_set st.heap st.workers i r f v hnd hlt hr
  · have hcoll : collOf st "tasks" = st.tasks := rfl
    rw [hcoll] at hnd hlt hr
    have happ : applyAt st.heap st.tasks i f v
        = some (st.heap.set r (setFields (st.heap.getD r []) f v), st.tasks) := by
      unfold applyAt
      rw [hr]
    refine ⟨{ st with heap := st.heap.set r (setFields (st.heap.getD r []) f v) },
      ?_, rfl, rfl, ?_⟩
    · unfold handleApplyFix
      rw [if_neg (by decide), if_neg (by decide), if_pos rfl, happ]
    · rw [hcoll, derefColl_getD st.heap st.tasks i r hr]
      exact derefColl_set st.heap st.tasks i r f v hnd hlt hr

/-- C5: an in-bounds apply of (entity tag, row index, field, new value)
over a duplicate-free, heap-valid collection succeeds for every new value
(no validation is performed at apply time), and the returned collection
compared by value equals the input collection except that the target
row's target field is the new value: the target field reads back the new
value, every other field of the target row is unchanged, and every other
row is unchanged. -/
theorem C5_apply_correction_value {α : Type} (st : PageState α) (et : String) (i : Nat)
    (f : String) (v : α) (r : Nat)
    (het : et = "clients" ∨ et = "workers" ∨ et = "tasks")
    (hnd : (collOf st et).Nodup)
    (hlt : ∀ ρ ∈ collOf st et, ρ < st.heap.length)
    (hr : (collOf st et)[i]? = some r) :
    ∃ st' : PageState α, handleApplyFix st et i f v = some st'
      ∧ derefColl st'.heap (collOf st' et)
          = (derefColl st.heap (collOf st et)).set i
              (setFields ((derefColl st.heap (collOf st et)).getD i []) f v)
      ∧ getField ((derefColl st'.heap (collOf st' et)).getD i []) f = some v
      ∧ (∀ g, g ≠ f → getField ((derefColl st'.heap (collOf st' et)).getD i []) g
          = getField ((derefColl st.heap (collOf st et)).getD i []) g)
      ∧ (∀ j, j ≠ i → (derefColl st'.heap (collOf st' et))[j]?
          = (derefColl st.heap (collOf st et))[j]?) := by
  obtain ⟨st', h1, h2, h3, h4⟩ := handleApplyFix_spec st et i f v r het hnd hlt hr
  have hlen : i < (derefColl st.heap (collOf st et)).length := by
    unfold derefColl
    rw [List.length_map]
    exact (List.getElem?_eq_some.1 hr).1
  have hgd : (derefColl st'.heap (collOf st' et)).getD i []
      = setFields ((derefColl st.heap (collOf st et)).getD i []) f v := by
    rw [h2, h4]
    exact getD_set_self _ _ _ _ hlen
  refine ⟨st', h1, ?_, ?_, ?_, ?_⟩
  · rw [h2, h4]
  · rw [hgd]
    exact getField_setFields_self _ _ _
  · intro g hg
    rw [hgd]
    exact getField_setFields_ne _ _ _ _ hg
  · intro j hj
    rw [h2, h4]
    exact List.getElem?_set_ne (fun hh => hj hh.symm)

/-- A two-row page state over string-valued rows, used to witness the
apply-fix theorems. -/
def pageStateC5 : PageState String :=
  ⟨[[("TaskID", "T1"), ("Duration", "1")], [("TaskID", "T2"), ("Duration", "2")]],
    [], [], [0, 1]⟩

/-- C5 witness: applying `('tasks', 1, 'Duration', "5")` to the concrete
two-task state succeeds and yields, by value, the same collection with
row 1's Duration field replaced. -/
theorem C5_apply_correction_value_witness :
    ∃ st' : PageState String, handleApplyFix pageStateC5 "tasks" 1 "Duration" "5" = some st'
      ∧ derefColl st'.heap (collOf st' "tasks")
          = (derefColl pageStateC5.heap (collOf pageStateC5 "tasks")).set 1
              (setFields ((derefColl pageStateC5.heap (collOf pageStateC5 "tasks")).getD 1 [])
                "Duration" "5")
      ∧ getField ((derefColl st'.heap (collOf st' "tasks")).getD 1 []) "Duration" = some "5" := by
  obtain ⟨st', h1, h2, h3, -, -⟩ :=
    C5_apply_correction_value pageStateC5 "tasks" 1 "Duration" "5" 1
      (Or.inr (Or.inr rfl)) (by decide) (by decide) rfl
  exact ⟨st', h1, h2, h3⟩

/-- The one-row page state used for the C4 counterexample: one task row
object on the heap, referenced by the tasks collection. -/
def pageStateC4 : PageState String :=
  ⟨[[("TaskID", "T1"), ("Duration", "1")]], [], [], [0]⟩

/-- The state `handleApplyFix` produces from `pageStateC4`: the shared
row object itself now carries the new value. -/
def pageStateC4' : PageState String :=
  ⟨[[("TaskID", "T1"), ("Duration", "5")]], [], [], [0]⟩

/-- C4 counterexample: the claim says the original input collection,
including every one of its row records, is unchanged after an apply; on
the code the apply succeeds, yet the rows read through the ORIGINAL
tasks collection afterwards differ from what they were before — the
shallow array copy shares the row object, which is patched in place. -/
theorem C4_immutability_counterexample :
    handleApplyFix pageStateC4 "tasks" 0 "Duration" "5" = some pageStateC4'
      ∧ derefColl pageStateC4'.heap pageStateC4.tasks
          ≠ derefColl pageStateC4.heap pageStateC4.tasks := by
  exact ⟨rfl, by decide⟩

/-- C4 amended: an in-bounds apply does produce a new collection value,
but with copy-by-reference semantics: the returned collection is the same
reference array, the target row object is mutated in place, and therefore
the patch is visible through the original collection — whenever the new
value differs from the cell's old value, the rows read through the
original input collection change. -/
theorem C4_apply_mutates_shared_row {α : Type} (st : PageState α) (et : String) (i : Nat)
    (f : String) (v : α) (r : Nat)
    (het : et = "clients" ∨ et = "workers" ∨ et = "tasks")
    (hnd : (collOf st et).Nodup)
    (hlt : ∀ ρ ∈ collOf st et, ρ < st.heap.length)
    (hr : (collOf st et)[i]? = some r) :
    ∃ st' : PageState α, handleApplyFix st et i f v = some st'
      ∧ collOf st' et = collOf st et
      ∧ derefColl st'.heap (collOf st et)
          = (derefColl st.heap (collOf st et)).set i
              (setFields ((derefColl st.heap (collOf st et)).getD i []) f v)
      ∧ (getField ((derefColl st.heap (collOf st et)).getD i []) f ≠ some v →
          derefColl st'.heap (collOf st et) ≠ derefColl st.heap (collOf st et)) := by
  obtain ⟨st', h1, h2, h3, h4⟩ := handleApplyFix_spec st et i f v r het hnd hlt hr
  have hlen : i < (derefColl st.heap (collOf st et)).length := by
    unfold derefColl
    rw [List.length_map]
    exact (List.getElem?_eq_some.1 hr).1
  refine ⟨st', h1, h2, h4, ?_⟩
  intro hne hcontra
  rw [h4] at hcontra
  have hgd := congrArg (fun l => l.getD i ([] : List (String × α))) hcontra
  simp only at hgd
  rw [getD_set_self _ _ _ _ hlen] at hgd
  exact hne (by rw [← hgd]; exact getField_setFields_self _ _ _)

/-- C4 witness: the amended statement at the concrete one-task state —
the apply succeeds, the collection keeps its row references, and since
the old Duration value differs from "5", the original collection's rows
are changed by the operation. -/
theorem C4_apply_mutates_shared_row_witness :
    ∃ st' : PageState String, handleApplyFix pageStateC4 "tasks" 0 "Duration" "5" = some st'
      ∧ collOf st' "tasks" = collOf pageStateC4 "tasks"
      ∧ derefColl st'.heap (collOf pageStateC4 "tasks")
          ≠ derefColl pageStateC4.heap (collOf pageStateC4 "tasks") := by
  obtain ⟨st', h1, h2, -, h4⟩ :=
    C4_apply_mutates_shared_row pageStateC4 "tasks" 0 "Duration" "5" 0
      (Or.inr (Or.inr rfl)) (by decide) (by decide) rfl
  exact ⟨st', h1, h2, h4 (by decide)⟩

end AIExcel
